import Mathlib

/-!
# Verification of the Reckless chess-engine core

A shallow embedding, in Lean 4, of the hot-path components of the Reckless
chess engine, together with proofs of the specified properties:

* the staged move picker (`src/movepick.rs`),
* the sparse-index extraction of the NNUE forward pass and the clamped
  L1/L2 propagation (`src/nnue/forward/vectorized.rs`),
* the per-square bitboard counter (`src/types/bitboard_counter.rs`),
* the SPMC broadcast-channel constructor (`src/threadpool/channel.rs`).

Machine integers are modelled as `Nat`/`Int` with explicit wrap-around where
the machine code wraps; 32-bit floats are modelled as rationals (`ℚ`), which
is adequate for the clamping properties proved here (they hold lane-wise for
any rounding of the arithmetic feeding the clamp).  Chess moves are modelled
as natural numbers, with `0` playing the role of the `Move::NULL` sentinel
(`is_some` is `≠ 0`).  The board and the history tables are external
collaborators of the specified components; they appear as an abstract record
of pure functions (`Td`), mirroring §6.1/§6.2 of the specification.
-/

namespace Reckless

/-! ## Move picker: data model (src/movepick.rs lines 7–62)

`Stage` and the `MovePicker` state are translated directly from the source.
A scored move (`Entry`) is a `(move, score)` pair with a signed 32-bit score;
scores are `Int` here, with the `i32` range imposed as a hypothesis where a
property depends on it.  `MoveList` is a plain list of entries. -/

inductive Stage where
  | HashMove
  | GenerateNoisy
  | GoodNoisy
  | GenerateQuiet
  | Quiet
  | BadNoisy
  deriving DecidableEq, Repr

/-- Position of a stage in the declaration order (`PartialOrd` on the Rust
enum compares declaration order). -/
def Stage.idx : Stage → Nat
  | .HashMove => 0
  | .GenerateNoisy => 1
  | .GoodNoisy => 2
  | .GenerateQuiet => 3
  | .Quiet => 4
  | .BadNoisy => 5

/-- `i32::MIN`, the score given to list entries equal to the TT move. -/
def INT32_MIN : Int := -(2 ^ 31)

/-- A scored move: the 64-bit record `(mv, score)` of the Rust `MoveList`. -/
structure Entry where
  mv : Nat
  score : Int
  deriving DecidableEq, Repr

instance : Inhabited Entry := ⟨⟨0, 0⟩⟩

/-- The slice of `ThreadData` consumed by the move picker (§6.1 board
contract and §6.2 history scorers), as pure functions:

* `pseudoLegal` is `board.is_pseudo_legal`;
* `noisyMoves`/`quietMoves` are the move sequences appended by
  `board.append_noisy_moves` / `board.append_quiet_moves`;
* `see m t` is `board.see(m, t)`;
* `noisyScore m` abstracts `16 * captured.value() + noisy_history.get(...)`
  computed by `score_noisy` for a non-TT move `m`;
* `quietScore ply m` abstracts the weighted history sum computed by
  `score_quiet` for a non-TT move `m` at `ply`;
* `isNoisy` classifies a move as capture/promotion/en-passant (glossary:
  "noisy move"). -/
structure Td where
  pseudoLegal : Nat → Bool
  noisyMoves : List Nat
  quietMoves : List Nat
  see : Nat → Int → Bool
  noisyScore : Nat → Int
  quietScore : Int → Nat → Int
  isNoisy : Nat → Bool

/-- `MovePicker` (src/movepick.rs lines 17–24). -/
structure MovePicker where
  list : List Entry
  ttMove : Nat
  threshold : Option Int
  stage : Stage
  badNoisy : List Nat
  badNoisyIdx : Nat
  deriving DecidableEq, Repr

/-- `MovePicker::new` (main search). -/
def MovePicker.new (ttMove : Nat) : MovePicker :=
  { list := [], ttMove := ttMove, threshold := none,
    stage := if ttMove ≠ 0 then .HashMove else .GenerateNoisy,
    badNoisy := [], badNoisyIdx := 0 }

/-- `MovePicker::new_probcut`. -/
def MovePicker.newProbcut (threshold : Int) : MovePicker :=
  { list := [], ttMove := 0, threshold := some threshold,
    stage := .GenerateNoisy, badNoisy := [], badNoisyIdx := 0 }

/-- `MovePicker::new_qsearch`. -/
def MovePicker.newQsearch : MovePicker :=
  { list := [], ttMove := 0, threshold := none,
    stage := .GenerateNoisy, badNoisy := [], badNoisyIdx := 0 }

/-! ## Scoring (src/movepick.rs lines 200–238) -/

/-- `score_noisy`, effect on one entry: the TT move gets `i32::MIN`, any
other move gets its noisy-history/captured-value score. -/
def scoreNoisyE (td : Td) (tt : Nat) (e : Entry) : Entry :=
  if e.mv = tt then { e with score := INT32_MIN }
  else { e with score := td.noisyScore e.mv }

/-- `score_noisy` over the whole list. -/
def scoreNoisy (td : Td) (tt : Nat) (l : List Entry) : List Entry :=
  l.map (scoreNoisyE td tt)

/-- `score_quiet`, effect on one entry. -/
def scoreQuietE (td : Td) (tt : Nat) (ply : Int) (e : Entry) : Entry :=
  if e.mv = tt then { e with score := INT32_MIN }
  else { e with score := td.quietScore ply e.mv }

/-- `score_quiet` over the whole list. -/
def scoreQuiet (td : Td) (tt : Nat) (ply : Int) (l : List Entry) : List Entry :=
  l.map (scoreQuietE td tt ply)

/-! ## Argmax selection and removal -/

/-- Scalar `find_best_score_index` (src/movepick.rs lines 148–161): fold with
initial `(best_index, best_score) = (0, i32::MIN)`, updating on `score >=
best_score` — so the last occurrence of the maximal score wins. -/
def find_best_score_index (l : List Entry) : Nat :=
  (l.foldl
    (fun (acc : Nat × Int × Nat) e =>
      if acc.2.1 ≤ e.score then (acc.2.2, e.score, acc.2.2 + 1)
      else (acc.1, acc.2.1, acc.2.2 + 1))
    (0, INT32_MIN, 0)).1

/-- `i64::MIN`, the `invalid` sentinel lane of the AVX2 argmax. -/
def I64_MIN : Int := -(2 ^ 63)

/-- The signed 64-bit value a lane of the AVX2 `find_best_score_index`
holds for entry `e` at index `i`: the entry is masked with
`0xFFFFFFFF00000000` (keeping the score in the high 32 bits) and `or`-ed
with the lane index, so the lane reads `score·2³² + i` as a signed 64-bit
integer (exact for `i32` scores and `i < 2³²`). -/
def packEntry (e : Entry) (i : Nat) : Int := e.score * 2 ^ 32 + i

/-- AVX2 `find_best_score_index` (src/movepick.rs lines 163–198): running
lane-wise signed-64 maxima over packed `(score, index)` lanes, lanes past
the end of the list blended to `i64::MIN`, reduced to a scalar maximum,
low byte (`& 0xFF`) extracted.  The 8-lane grouping is dropped here
because `max` is associative and commutative, and the out-of-range padding
lanes equal the fold's initial value `i64::MIN`, so folding the packed
values of the actual entries is the same maximum; `& 0xFF` on a two's
complement value is `emod 256`. -/
def find_best_score_index_avx2 (l : List Entry) : Nat :=
  (((l.enum.map (fun p => packEntry p.2 p.1)).foldl max I64_MIN) % 256).toNat

/-- Modelled from the spec (§3 "Move list": "random-access remove
(last-element swap)"): `MoveList::remove` is not under `src/`; it replaces
the element at `i` with the last element and pops the last slot. -/
def removeSwap (l : List Entry) (i : Nat) : List Entry :=
  (l.set i (l.getLast?.getD default)).dropLast

theorem removeSwap_length (l : List Entry) (i : Nat) :
    (removeSwap l i).length = l.length - 1 := by
  simp [removeSwap]

/-! ## The staged `next` (src/movepick.rs lines 64–146)

Each internal `while` loop removes one list element (or advances
`bad_noisy_idx`) per iteration, so it is embedded as a structurally
recursive function on a fuel argument; the wrappers pass exactly the
loop's iteration bound, which the length bookkeeping shows is enough. -/

/-- One `GoodNoisy` stage execution (the `while` at lines 80–98 plus the
stage advance at line 100).  Yields the selected move, or `none` after
setting the stage to `GenerateQuiet` when the list is exhausted. -/
def goodNoisyLoop (td : Td) (root : Bool) : Nat → MovePicker → Option Nat × MovePicker
  | 0, p => (none, { p with stage := .GenerateQuiet })
  | fuel + 1, p =>
    if p.list.isEmpty then (none, { p with stage := .GenerateQuiet })
    else
      let i := find_best_score_index p.list
      let e := p.list.getD i default
      let rest := removeSwap p.list i
      if e.mv = p.ttMove then
        goodNoisyLoop td root fuel { p with list := rest }
      else
        let thr := p.threshold.getD (Int.tdiv (-e.score) 46 + 109)
        if td.see e.mv thr then
          (some e.mv,
            { p with list := if root then scoreNoisy td p.ttMove rest else rest })
        else
          goodNoisyLoop td root fuel
            { p with list := rest, badNoisy := p.badNoisy ++ [e.mv] }

/-- One `Quiet` stage execution (the `while` at lines 115–127 plus the stage
advance at line 130). -/
def quietLoop (td : Td) (root : Bool) (ply : Int) :
    Nat → MovePicker → Option Nat × MovePicker
  | 0, p => (none, { p with stage := .BadNoisy })
  | fuel + 1, p =>
    if p.list.isEmpty then (none, { p with stage := .BadNoisy })
    else
      let i := find_best_score_index p.list
      let e := p.list.getD i default
      let rest := removeSwap p.list i
      if e.mv = p.ttMove then
        quietLoop td root ply fuel { p with list := rest }
      else
        (some e.mv,
          { p with list := if root then scoreQuiet td p.ttMove ply rest else rest })

/-- The final `bad_noisy` drain (the `while` at lines 134–143). -/
def badNoisyLoop : Nat → MovePicker → Option Nat × MovePicker
  | 0, p => (none, p)
  | fuel + 1, p =>
    if p.badNoisyIdx < p.badNoisy.length then
      let mv := p.badNoisy.getD p.badNoisyIdx 0
      let p' := { p with badNoisyIdx := p.badNoisyIdx + 1 }
      if mv = p.ttMove then badNoisyLoop fuel p' else (some mv, p')
    else (none, p)

/-- `GenerateNoisy` phase (lines 73–77): append the noisy moves and score the
list.  Freshly appended entries carry score 0 until `score_noisy` runs. -/
def phaseGenerateNoisy (td : Td) (p : MovePicker) : MovePicker :=
  if p.stage = .GenerateNoisy then
    { p with stage := .GoodNoisy,
             list := scoreNoisy td p.ttMove
               (p.list ++ td.noisyMoves.map (fun m => ⟨m, 0⟩)) }
  else p

/-- `GenerateQuiet` phase (lines 103–111). -/
def phaseGenerateQuiet (td : Td) (skipQuiets : Bool) (ply : Int)
    (p : MovePicker) : MovePicker :=
  if p.stage = .GenerateQuiet then
    if skipQuiets then { p with stage := .BadNoisy }
    else
      { p with stage := .Quiet,
               list := scoreQuiet td p.ttMove ply
                 (p.list ++ td.quietMoves.map (fun m => ⟨m, 0⟩)) }
  else p

/-- The tail of `next` from the `GenerateQuiet` check onward (lines
103–145): generate/score quiets unless skipped, drain the `Quiet` stage,
then fall through into the `bad_noisy` drain. -/
def nextFromGenQuiet (td : Td) (root skipQuiets : Bool) (ply : Int)
    (p3 : MovePicker) : Option Nat × MovePicker :=
  let p4 := phaseGenerateQuiet td skipQuiets ply p3
  match (if p4.stage = .Quiet ∧ !skipQuiets then
           quietLoop td root ply p4.list.length p4
         else if p4.stage = .Quiet then (none, { p4 with stage := .BadNoisy })
         else (none, p4)) with
  | (some m, p5) => (some m, p5)
  | (none, p5) => badNoisyLoop (p5.badNoisy.length - p5.badNoisyIdx) p5

/-- The tail of `next` from the `GenerateNoisy` check onward (lines
73–145). -/
def nextFromGenNoisy (td : Td) (root skipQuiets : Bool) (ply : Int)
    (p1 : MovePicker) : Option Nat × MovePicker :=
  let p2 := phaseGenerateNoisy td p1
  match (if p2.stage = .GoodNoisy then goodNoisyLoop td root p2.list.length p2
         else (none, p2)) with
  | (some m, p3) => (some m, p3)
  | (none, p3) => nextFromGenQuiet td root skipQuiets ply p3

/-- `MovePicker::next` (src/movepick.rs lines 64–146).  `root` is
`NODE::ROOT`; the re-scoring it triggers after each yield is inside the
loops above.  The successive `if self.stage == ...` blocks of the source
become a chain falling through on `none`. -/
def next (td : Td) (root skipQuiets : Bool) (ply : Int) (p : MovePicker) :
    Option Nat × MovePicker :=
  if p.stage = .HashMove ∧ td.pseudoLegal p.ttMove then
    (some p.ttMove, { p with stage := .GenerateNoisy })
  else
    nextFromGenNoisy td root skipQuiets ply
      (if p.stage = .HashMove then { p with stage := .GenerateNoisy } else p)

/-- A run of the picker: one `next` call per element of `inputs` (the
`skip_quiets` flag and `ply` of that call), recording for each call the
stage on entry and the move yielded. -/
def runTrace (td : Td) (root : Bool) :
    MovePicker → List (Bool × Int) → List (Stage × Option Nat)
  | _, [] => []
  | p, (skip, ply) :: rest =>
    let r := next td root skip ply p
    (p.stage, r.1) :: runTrace td root r.2 rest

/-- Initial picker states: the three construction modes of §4.3. -/
def InitialPicker (p : MovePicker) : Prop :=
  (∃ tt, p = MovePicker.new tt) ∨ (∃ t, p = MovePicker.newProbcut t) ∨
    p = MovePicker.newQsearch

/-- The stage sequence observed along a run: the entry stage of each call,
followed by the final state's stage. -/
def stagesTrace (td : Td) (root : Bool) :
    MovePicker → List (Bool × Int) → List Stage
  | p, [] => [p.stage]
  | p, (skip, ply) :: rest =>
    p.stage :: stagesTrace td root (next td root skip ply p).2 rest

/-- A concrete board/history record used to witness the picker theorems:
TT move 5 is pseudo-legal, one capture 7 passing SEE, no quiets. -/
def tdW : Td :=
  { pseudoLegal := fun m => m == 5, noisyMoves := [7], quietMoves := [],
    see := fun _ _ => true, noisyScore := fun m => m,
    quietScore := fun _ m => m, isNoisy := fun m => m == 7 }

/-- Picker states reachable from one of the three constructors by `next`
calls (with arbitrary per-call `skip_quiets` and `ply`). -/
inductive Reachable (td : Td) (root : Bool) : MovePicker → Prop where
  | new (tt : Nat) : Reachable td root (MovePicker.new tt)
  | probcut (t : Int) : Reachable td root (MovePicker.newProbcut t)
  | qsearch : Reachable td root MovePicker.newQsearch
  | step (skip : Bool) (ply : Int) (p : MovePicker) :
      Reachable td root p → Reachable td root (next td root skip ply p).2

/-- List entries produced by noisy generation and scoring: each is a
generated noisy move, and each non-TT entry carries exactly the score that
`score_noisy` computes for it. -/
def NoisyEntriesOk (td : Td) (tt : Nat) (l : List Entry) : Prop :=
  ∀ e ∈ l, e.mv ∈ td.noisyMoves ∧ (e.mv ≠ tt → e.score = td.noisyScore e.mv)

/-- What is true of every move in `bad_noisy` at the moment it was pushed:
it is a generated noisy move, differs from the TT move, and failed SEE
against the threshold computed from its `score_noisy` score (the caller's
threshold in ProbCut mode). -/
def BadPushProp (td : Td) (p : MovePicker) (m : Nat) : Prop :=
  m ∈ td.noisyMoves ∧ m ≠ p.ttMove ∧
    td.see m (p.threshold.getD (Int.tdiv (-(td.noisyScore m)) 46 + 109)) = false

/-- State invariant of the picker maintained by `next`. -/
def PickerInv (td : Td) (p : MovePicker) : Prop :=
  ((p.stage = .HashMove ∨ p.stage = .GenerateNoisy ∨
      p.stage = .GenerateQuiet) → p.list = []) ∧
  (p.stage = .GoodNoisy → NoisyEntriesOk td p.ttMove p.list) ∧
  (∀ m ∈ p.badNoisy, BadPushProp td p m)

/-- `i` is the index the argmax scan must return: the position of the
maximal score, with later indices winning ties. -/
def IsLastArgmax (l : List Entry) (i : Nat) : Prop :=
  i < l.length ∧
  (∀ j, j < l.length → (l.getD j default).score ≤ (l.getD i default).score) ∧
  (∀ j, i < j → j < l.length → (l.getD j default).score < (l.getD i default).score)

/-- Descending selection order: repeatedly extract the argmax entry exactly
as the picker's yield loops consume a list (fuel-recursive; callers pass the
list length). -/
def selSort : Nat → List Entry → List Entry
  | 0, _ => []
  | fuel + 1, l =>
    if l.isEmpty then []
    else
      l.getD (find_best_score_index l) default ::
        selSort fuel (removeSwap l (find_best_score_index l))

/-- Descending selection order of a whole list. -/
def selSortL (l : List Entry) : List Entry := selSort l.length l

/-- Executable check that a score sequence is non-increasing. -/
def descB : List Int → Bool
  | [] => true
  | [_] => true
  | a :: b :: rest => decide (b ≤ a) && descB (b :: rest)

/-- Moves yielded by repeated `next` calls with the same `skip_quiets` and
`ply`, stopping at the first `none` (or after `fuel` yields). -/
def drain (td : Td) (root skip : Bool) (ply : Int) :
    Nat → MovePicker → List Nat
  | 0, _ => []
  | fuel + 1, p =>
    match next td root skip ply p with
    | (none, _) => []
    | (some m, p') => m :: drain td root skip ply fuel p'

/-- The scored list built by the `GenerateNoisy` stage from an empty list
with no TT move. -/
def noisyEntries (td : Td) : List Entry :=
  scoreNoisy td 0 (td.noisyMoves.map (fun m => ⟨m, 0⟩))

/-- The scored list built by the `GenerateQuiet` stage from an empty list
with no TT move. -/
def quietEntries (td : Td) (ply : Int) : List Entry :=
  scoreQuiet td 0 ply (td.quietMoves.map (fun m => ⟨m, 0⟩))

/-- Concrete inputs for the C5 witness: a single noisy move 7 whose SEE
always fails, sitting ready in the `GoodNoisy` stage. -/
def tdF : Td :=
  { pseudoLegal := fun _ => false, noisyMoves := [7], quietMoves := [],
    see := fun _ _ => false, noisyScore := fun m => m,
    quietScore := fun _ m => m, isNoisy := fun m => m == 7 }

/-- A `GoodNoisy`-stage state holding the scored entry for move 7. -/
def pF : MovePicker :=
  { list := [⟨7, 7⟩], ttMove := 0, threshold := none, stage := .GoodNoisy,
    badNoisy := [], badNoisyIdx := 0 }

/-- The picker state right after the `GenerateNoisy` phase of the first
call on `MovePicker.new 0`. -/
def pStartOf (td : Td) : MovePicker :=
  { list := noisyEntries td, ttMove := 0, threshold := none,
    stage := .GoodNoisy, badNoisy := [], badNoisyIdx := 0 }

/-- The picker state after the `GoodNoisy` stage has pushed every noisy
move into `bad_noisy` (all-fail SEE scenario). -/
def qMidOf (td : Td) : MovePicker :=
  { list := [], ttMove := 0, threshold := none, stage := .GenerateQuiet,
    badNoisy := (selSortL (noisyEntries td)).map (fun e => e.mv),
    badNoisyIdx := 0 }

/-- The picker state after the `GenerateQuiet` phase in the same
scenario. -/
def pQuietOf (td : Td) (ply : Int) : MovePicker :=
  { list := quietEntries td ply, ttMove := 0, threshold := none,
    stage := .Quiet,
    badNoisy := (selSortL (noisyEntries td)).map (fun e => e.mv),
    badNoisyIdx := 0 }

/-- Concrete inputs for the C7 counterexample: two noisy moves generated in
the order `[7, 9]`, the later one scoring higher, both failing SEE. -/
def tdSel : Td :=
  { pseudoLegal := fun _ => false, noisyMoves := [7, 9], quietMoves := [],
    see := fun _ _ => false, noisyScore := fun m => m,
    quietScore := fun _ m => m, isNoisy := fun m => m == 7 || m == 9 }

/-! ## NNUE sparse index extraction (src/nnue/forward/vectorized.rs)

An activation buffer is viewed, as in the source, as its sequence of 4-byte
chunks; a chunk is the signed 32-bit integer formed by its 4 bytes.  Each
`find_nnz` implementation is embedded as a function from the chunk list to
the emitted index list (the returned count is the list's length).  The
implementations index with single bytes, which is exact while every index
is below 256 — the source requires `L1_SIZE / 4 ≤ 256` — so the
equivalence theorems carry a `length ≤ 256` hypothesis.  Loops are
fuel-structural; the wrappers pass the chunk count, which bounds the block
count. -/

/-- The ascending indices (starting at `base`) of the nonzero chunks. -/
def nzIndicesFrom (base : Nat) : List Int → List Nat
  | [] => []
  | c :: rest => (if c ≠ 0 then [base] else []) ++ nzIndicesFrom (base + 1) rest

/-- Portable `find_nnz` (lines 159–184): per 8-chunk group, the
spec-modelled `nnz_table` entry for the group's mask byte (`SparseEntry`
and `simd::nnz_bitmask` are not under `src/`; modelled from the spec,
§4.4.2: table keyed by the 8-bit mask of 8 chunks, mask bit set where "the
chunk is non-zero", entry = the ascending set-bit positions plus their
count).  `base + entry.indexes` adds `8 × group` to every index byte with
no byte carry while indices stay below 256, and the running `count` keeps
exactly `entry.count` of each 8-byte unaligned write — i.e. the group's
active indices are appended in ascending order. -/
def findNnzPortableAux : Nat → Nat → List Int → List Nat
  | 0, _, _ => []
  | _, _, [] => []
  | fuel + 1, base, l =>
    nzIndicesFrom base (l.take 8) ++ findNnzPortableAux fuel (base + 8) (l.drop 8)

def find_nnz_portable (l : List Int) : List Nat := findNnzPortableAux l.length 0 l

/-- AVX-512 VBMI `find_nnz` (lines 244–277): per 64-chunk block, the
`kunpackw`/`kunpackd` chain concatenates the four 16-bit `nnz_bitmask`
masks in ascending chunk order, and `maskz_compress_epi8` over the
ascending byte pattern `base = 0,1,…,63 (+ 64·block)` emits the active
indices in ascending order; the running `count += popcount` keeps exactly
those bytes of each 64-byte store. -/
def findNnzAvx512Aux : Nat → Nat → List Int → List Nat
  | 0, _, _ => []
  | _, _, [] => []
  | fuel + 1, base, l =>
    nzIndicesFrom base (l.take 64) ++ findNnzAvx512Aux fuel (base + 64) (l.drop 64)

def find_nnz_avx512 (l : List Int) : List Nat := findNnzAvx512Aux l.length 0 l

/-- `_mm256_packs_epi32`: saturate a signed 32-bit value to 16 bits. -/
def satI16 (c : Int) : Int := max (-(2 ^ 15)) (min (2 ^ 15 - 1) c)

/-- `_mm256_packs_epi16`: saturate a signed 16-bit value to 8 bits. -/
def satI8 (c : Int) : Int := max (-(2 ^ 7)) (min (2 ^ 7 - 1) c)

/-- The per-chunk mask bit of the AVX2 path: the chunk saturated to 16 and
then to 8 bits, compared signed-greater-than-zero (`_mm256_cmpgt_epi8`
against zero). -/
def avx2Active (c : Int) : Bool := decide (0 < satI8 (satI16 c))

/-- The order in which one 32-chunk block's lanes appear after the two
`packs` steps (they interleave 128-bit lanes), matching the index-byte
constants `base0 = 0x0b0a090803020100`, `base1 = 0x1b1a191813121110`,
`base2 = 0x0f0e0d0c07060504`, `base3 = 0x1f1e1d1c17161514` of the source. -/
def avx2Pattern : List Nat :=
  [0, 1, 2, 3, 8, 9, 10, 11, 16, 17, 18, 19, 24, 25, 26, 27,
   4, 5, 6, 7, 12, 13, 14, 15, 20, 21, 22, 23, 28, 29, 30, 31]

/-- One 32-chunk block of the AVX2+BMI2 `find_nnz` (lines 190–241): the
mask bytes are all-ones exactly at the active chunks, so each
`_pext_u64(base_k, mask_k)` compresses the corresponding 8 index bytes,
keeping the active ones in `avx2Pattern` order; `count += popcount/8`
keeps exactly those bytes of each unaligned write. -/
def findNnzAvx2Block (base : Nat) (g : List Int) : List Nat :=
  avx2Pattern.filterMap
    (fun j => if avx2Active (g.getD j 0) then some (base + j) else none)

def findNnzAvx2Aux : Nat → Nat → List Int → List Nat
  | 0, _, _ => []
  | _, _, [] => []
  | fuel + 1, base, l =>
    findNnzAvx2Block base (l.take 32) ++ findNnzAvx2Aux fuel (base + 32) (l.drop 32)

def find_nnz_avx2 (l : List Int) : List Nat := findNnzAvx2Aux l.length 0 l

/-- The 32-chunk counterexample buffer: chunk 0 is `0x80000000` (bytes
`00 00 00 80`, i.e. `i32::MIN`, a non-zero chunk that is negative as a
signed 32-bit integer), chunks 4 and 8 are 1, the rest are zero. -/
def exC2 : List Int :=
  [-(2 ^ 31), 0, 0, 0, 1, 0, 0, 0, 1, 0, 0, 0, 0, 0, 0, 0,
   0, 0, 0, 0, 0, 0, 0, 0, 0, 0, 0, 0, 0, 0, 0, 0]

/-! ## NNUE clamped propagation (src/nnue/forward/vectorized.rs lines
55–133)

32-bit floats are modelled as rationals; the bound proved (clamping to
`[0, 1]`) holds lane-wise for any rounding of the arithmetic feeding the
clamp.  The `i32` accumulation of `vpdpbusd` wraps, which the model makes
explicit. -/

/-- `clamp_f32(x, 0, 1)` as executed: `min(1, max(0, x))`. -/
def clampQ (x : ℚ) : ℚ := min 1 (max 0 x)

/-- Wrap to a signed 32-bit integer. -/
def wrap32 (x : Int) : Int := (x + 2 ^ 31) % 2 ^ 32 - 2 ^ 31

/-- Byte `k` (0–3) of a 4-byte chunk, as the unsigned value `vpdpbusd`
reads. -/
def chunkByte (c : Int) (k : Nat) : Int := (((c % 2 ^ 32).toNat >>> (8 * k)) % 256 : Nat)

/-- One `dpbusd` accumulation step on the `i32` lane `j`: add the four
products of the chunk's unsigned bytes with the signed weight bytes
`w (4j+k)`, wrapping at 32 bits. -/
def dpbusdLane (acc : Int) (chunk : Int) (w : Nat → Int) (j : Nat) : Int :=
  wrap32 (acc +
    ((List.range 4).foldl (fun a k => a + chunkByte chunk k * w (4 * j + k)) 0))

/-- The pre-activation accumulation of `propagate_l1` on lane `j`: the
pair loop (`double_dpbusd` = two chained `dpbusd` steps) followed by the
odd remainder (`dpbusd`). -/
def l1Pre (packed : Nat → Int) (w : Nat → Nat → Int) (j : Nat) :
    List Nat → Int → Int
  | [], acc => acc
  | [i1], acc => dpbusdLane acc (packed i1) (w i1) j
  | i1 :: i2 :: rest, acc =>
    l1Pre packed w j rest
      (dpbusdLane (dpbusdLane acc (packed i1) (w i1) j) (packed i2) (w i2) j)

/-- `propagate_l1` output lane `j` (lines 55–108): the wrapped integer
pre-activation converted to float, scaled by `DEQUANT_MULTIPLIER`, biased,
and clamped to `[0, 1]`.  `packed i` is the `i32` chunk of the activation
buffer at sparse index `i`, `w i b` is byte `b` of the `L2_SIZE × 4`
weight slab for index `i`. -/
def propagate_l1 (packed : Nat → Int) (nnz : List Nat) (w : Nat → Nat → Int)
    (bias : Nat → ℚ) (dequant : ℚ) (j : Nat) : ℚ :=
  clampQ ((l1Pre packed w j nnz 0 : ℚ) * dequant + bias j)

/-- `propagate_l2` output lane `j` (lines 110–133): initialise with the L2
bias, FMA `weights[i][j] * l1_out[i]` for `i` ascending, clamp to
`[0, 1]`. -/
def propagate_l2 (l1_out : Nat → ℚ) (w2 : Nat → Nat → ℚ) (bias2 : Nat → ℚ)
    (L2 : Nat) (j : Nat) : ℚ :=
  clampQ ((List.range L2).foldl (fun a i => w2 i j * l1_out i + a) (bias2 j))

/-! ## Bitboard counter (src/types/bitboard_counter.rs)

The AVX-512 register is one byte per square; bitboards are `u64` values
tested bitwise. -/

structure BitboardCounter where
  bb : Fin 64 → Nat

/-- `_mm512_maskz_set1_epi8(mask, 1)`: byte 1 at the mask's set bits. -/
def maskzSet1 (mask : Nat) : Fin 64 → Nat :=
  fun s => if mask.testBit s.val then 1 else 0

/-- `_mm512_add_epi8`: lane-wise wrapping byte addition. -/
def addBytes (a b : Fin 64 → Nat) : Fin 64 → Nat :=
  fun s => (a s + b s) % 256

/-- `_mm512_sub_epi8`: lane-wise wrapping byte subtraction. -/
def subBytes (a b : Fin 64 → Nat) : Fin 64 → Nat :=
  fun s => (a s + (256 - b s % 256)) % 256

/-- `Default for BitboardCounter`: the zeroed register. -/
def BitboardCounter.zeroed : BitboardCounter := ⟨fun _ => 0⟩

/-- `BitboardCounter::update(delta)`: subtract 1 at `delta[0]`'s squares,
then add 1 at `delta[1]`'s squares. -/
def BitboardCounter.update (c : BitboardCounter) (delta : Nat × Nat) :
    BitboardCounter :=
  ⟨addBytes (subBytes c.bb (maskzSet1 delta.1)) (maskzSet1 delta.2)⟩

/-- `BitboardCounter::add(delta)`: add 1 at `delta`'s squares. -/
def BitboardCounter.add (c : BitboardCounter) (delta : Nat) : BitboardCounter :=
  ⟨addBytes c.bb (maskzSet1 delta)⟩

/-- `BitboardCounter::reduce()`: `_mm512_cmpneq_epi8_mask` against zero —
the bitboard of squares with a non-zero count byte. -/
def BitboardCounter.reduce (c : BitboardCounter) : Nat :=
  (List.finRange 64).foldl
    (fun acc s => if c.bb s ≠ 0 then acc + 2 ^ s.val else acc) 0

/-- A counter operation: `update(sub, add)` or `add(delta)`. -/
inductive CounterOp where
  | update (sub add : Nat)
  | add (delta : Nat)

def applyOp (c : BitboardCounter) : CounterOp → BitboardCounter
  | .update sub add => c.update (sub, add)
  | .add d => c.add d

def applyOps (c : BitboardCounter) (ops : List CounterOp) : BitboardCounter :=
  ops.foldl applyOp c

/-- How many increments an operation applies at square `s` (0 or 1). -/
def opAdds (o : CounterOp) (s : Fin 64) : Nat :=
  match o with
  | .update _ add => if add.testBit s.val then 1 else 0
  | .add d => if d.testBit s.val then 1 else 0

/-- How many decrements an operation applies at square `s` (0 or 1). -/
def opSubs (o : CounterOp) (s : Fin 64) : Nat :=
  match o with
  | .update sub _ => if sub.testBit s.val then 1 else 0
  | .add _ => 0

/-! ## SPMC broadcast channel constructor (src/threadpool/channel.rs) -/

/-- `Futex::THREADS_MASK = u32::MAX >> 1`. -/
def THREADS_MASK : Nat := 2 ^ 31 - 1

/-- The shared channel state at construction: a null message pointer
(modelled as the flag `msgNull`), the futex word 0, and the fixed receiver
count. -/
structure ChannelShared where
  msgNull : Bool
  futex : Nat
  receiverCount : Nat
  deriving DecidableEq, Repr

structure ChannelSender where
  shared : ChannelShared
  deriving DecidableEq, Repr

structure ChannelReceiver where
  shared : ChannelShared
  generation : Bool
  deriving DecidableEq, Repr

/-- `channel(receiver_count)` (src/threadpool/channel.rs lines 71–84):
`assert!((1..=THREADS_MASK).contains(&receiver_count))` — the assertion
failure (abort) is modelled as `none` — then one sender and
`repeat_n(shared, receiver_count)` receivers with `generation = false`. -/
def channel (receiverCount : Nat) : Option (ChannelSender × List ChannelReceiver) :=
  if 1 ≤ receiverCount ∧ receiverCount ≤ THREADS_MASK then
    some (⟨⟨true, 0, receiverCount⟩⟩,
      List.replicate receiverCount ⟨⟨true, 0, receiverCount⟩, false⟩)
  else none

/-! ## Basic facts about the loops -/

theorem getD_mem {α : Type _} (l : List α) (d : α) (i : Nat) (h : i < l.length) :
    l.getD i d ∈ l := by
  rw [List.getD_eq_getElem l d h]
  exact List.getElem_mem h

theorem goodNoisyLoop_facts (td : Td) (root : Bool) (fuel : Nat) (p : MovePicker) :
    (goodNoisyLoop td root fuel p).2.ttMove = p.ttMove ∧
    (goodNoisyLoop td root fuel p).2.threshold = p.threshold ∧
    ((goodNoisyLoop td root fuel p).1 = none →
      (goodNoisyLoop td root fuel p).2.stage = .GenerateQuiet) ∧
    (∀ m, (goodNoisyLoop td root fuel p).1 = some m →
      m ≠ p.ttMove ∧ (goodNoisyLoop td root fuel p).2.stage = p.stage) ∧
    (goodNoisyLoop td root fuel p).2.badNoisyIdx = p.badNoisyIdx := by
  induction fuel generalizing p with
  | zero => simp [goodNoisyLoop]
  | succ n ih =>
    simp only [goodNoisyLoop]
    split
    · simp
    · split
      · exact ih _
      · split
        · refine ⟨rfl, rfl, by simp, ?_, rfl⟩
          rintro m hm
          simp only [Option.some.injEq] at hm
          subst hm
          exact ⟨by assumption, rfl⟩
        · exact ih _

theorem goodNoisyLoop_stage_cases (td : Td) (root : Bool) (fuel : Nat)
    (p : MovePicker) :
    (goodNoisyLoop td root fuel p).2.stage = p.stage ∨
    (goodNoisyLoop td root fuel p).2.stage = .GenerateQuiet := by
  obtain ⟨_, _, hn, hs, _⟩ := goodNoisyLoop_facts td root fuel p
  cases ho : (goodNoisyLoop td root fuel p).1 with
  | none => exact Or.inr (hn ho)
  | some m => exact Or.inl (hs m ho).2

theorem quietLoop_facts (td : Td) (root : Bool) (ply : Int) (fuel : Nat)
    (p : MovePicker) :
    (quietLoop td root ply fuel p).2.ttMove = p.ttMove ∧
    (quietLoop td root ply fuel p).2.threshold = p.threshold ∧
    ((quietLoop td root ply fuel p).2.stage = p.stage ∨
      (quietLoop td root ply fuel p).2.stage = .BadNoisy) ∧
    (∀ m, (quietLoop td root ply fuel p).1 = some m → m ≠ p.ttMove) ∧
    (quietLoop td root ply fuel p).2.badNoisy = p.badNoisy ∧
    (quietLoop td root ply fuel p).2.badNoisyIdx = p.badNoisyIdx := by
  induction fuel generalizing p with
  | zero => simp [quietLoop]
  | succ n ih =>
    simp only [quietLoop]
    split
    · simp
    · split
      · exact ih _
      · refine ⟨rfl, rfl, Or.inl rfl, ?_, rfl, rfl⟩
        rintro m hm
        simp only [Option.some.injEq] at hm
        subst hm
        assumption

/-- A state with the same list, TT move, threshold, stage and `bad_noisy`
buffer satisfies the same picker invariant. -/
theorem pickerInv_transfer (td : Td) (p q : MovePicker) (h : PickerInv td p)
    (hl : q.list = p.list) (ht : q.ttMove = p.ttMove)
    (hth : q.threshold = p.threshold) (hs : q.stage = p.stage)
    (hb : q.badNoisy = p.badNoisy) : PickerInv td q := by
  obtain ⟨h1, h2, h3⟩ := h
  refine ⟨?_, ?_, ?_⟩
  · rw [hs, hl]; exact h1
  · rw [hs, hl, ht]; exact h2
  · rw [hb]
    intro m hm
    obtain ⟨a, b, c⟩ := h3 m hm
    exact ⟨a, by rw [ht]; exact b, by rw [hth]; exact c⟩

theorem badPushProp_transfer (td : Td) (p q : MovePicker) (m : Nat)
    (ht : q.ttMove = p.ttMove) (hth : q.threshold = p.threshold)
    (h : BadPushProp td p m) : BadPushProp td q m := by
  obtain ⟨a, b, c⟩ := h
  exact ⟨a, by rw [ht]; exact b, by rw [hth]; exact c⟩

theorem badNoisyLoop_facts (fuel : Nat) (p : MovePicker) :
    (badNoisyLoop fuel p).2.ttMove = p.ttMove ∧
    (badNoisyLoop fuel p).2.threshold = p.threshold ∧
    (badNoisyLoop fuel p).2.stage = p.stage ∧
    (badNoisyLoop fuel p).2.list = p.list ∧
    (badNoisyLoop fuel p).2.badNoisy = p.badNoisy ∧
    (∀ m, (badNoisyLoop fuel p).1 = some m → m ≠ p.ttMove ∧ m ∈ p.badNoisy) := by
  induction fuel generalizing p with
  | zero => simp [badNoisyLoop]
  | succ n ih =>
    simp only [badNoisyLoop]
    split
    · split
      · exact ih _
      · refine ⟨rfl, rfl, rfl, rfl, rfl, ?_⟩
        rintro m hm
        simp only [Option.some.injEq] at hm
        subst hm
        refine ⟨by assumption, getD_mem _ _ _ ?_⟩
        assumption
    · simp

theorem phaseGenerateNoisy_facts (td : Td) (p : MovePicker) :
    (phaseGenerateNoisy td p).ttMove = p.ttMove ∧
    (phaseGenerateNoisy td p).threshold = p.threshold ∧
    ((phaseGenerateNoisy td p).stage = p.stage ∨
      (p.stage = .GenerateNoisy ∧ (phaseGenerateNoisy td p).stage = .GoodNoisy)) ∧
    (phaseGenerateNoisy td p).badNoisy = p.badNoisy ∧
    (phaseGenerateNoisy td p).badNoisyIdx = p.badNoisyIdx := by
  unfold phaseGenerateNoisy
  split <;> simp_all

theorem phaseGenerateQuiet_facts (td : Td) (skip : Bool) (ply : Int)
    (p : MovePicker) :
    (phaseGenerateQuiet td skip ply p).ttMove = p.ttMove ∧
    (phaseGenerateQuiet td skip ply p).threshold = p.threshold ∧
    ((phaseGenerateQuiet td skip ply p).stage = p.stage ∨
      (p.stage = .GenerateQuiet ∧
        ((phaseGenerateQuiet td skip ply p).stage = .Quiet ∨
          (phaseGenerateQuiet td skip ply p).stage = .BadNoisy))) ∧
    (phaseGenerateQuiet td skip ply p).badNoisy = p.badNoisy ∧
    (phaseGenerateQuiet td skip ply p).badNoisyIdx = p.badNoisyIdx := by
  unfold phaseGenerateQuiet
  split
  · split <;> simp_all
  · simp

theorem nextFromGenQuiet_facts (td : Td) (root skip : Bool) (ply : Int)
    (p3 : MovePicker) :
    (nextFromGenQuiet td root skip ply p3).2.ttMove = p3.ttMove ∧
    (nextFromGenQuiet td root skip ply p3).2.threshold = p3.threshold ∧
    p3.stage.idx ≤ (nextFromGenQuiet td root skip ply p3).2.stage.idx ∧
    ((nextFromGenQuiet td root skip ply p3).2.stage = .HashMove →
      p3.stage = .HashMove) ∧
    (∀ m, (nextFromGenQuiet td root skip ply p3).1 = some m → m ≠ p3.ttMove) := by
  obtain ⟨h4t, h4th, h4s, h4b, h4i⟩ := phaseGenerateQuiet_facts td skip ply p3
  unfold nextFromGenQuiet
  set p4 := phaseGenerateQuiet td skip ply p3 with hp4
  rcases hq : (if p4.stage = .Quiet ∧ !skip then quietLoop td root ply p4.list.length p4
               else if p4.stage = .Quiet then (none, { p4 with stage := .BadNoisy })
               else (none, p4)) with ⟨o, p5⟩
  have h5 : p5.ttMove = p4.ttMove ∧ p5.threshold = p4.threshold ∧
      (p5.stage = p4.stage ∨ p5.stage = .BadNoisy) ∧
      (∀ m, o = some m → m ≠ p4.ttMove) := by
    split at hq
    · obtain ⟨a, b, c, d, _, _⟩ := quietLoop_facts td root ply p4.list.length p4
      rw [hq] at a b c d
      exact ⟨a, b, c, d⟩
    · split at hq
      · obtain ⟨rfl, rfl⟩ := Prod.mk.injEq .. ▸ hq
        exact ⟨rfl, rfl, Or.inr rfl, by simp⟩
      · obtain ⟨rfl, rfl⟩ := Prod.mk.injEq .. ▸ hq
        exact ⟨rfl, rfl, Or.inl rfl, by simp⟩
  obtain ⟨h5t, h5th, h5s, h5y⟩ := h5
  have hbn := badNoisyLoop_facts (p5.badNoisy.length - p5.badNoisyIdx) p5
  simp only [hq]
  have hstage45 : p4.stage.idx ≤ p5.stage.idx ∧ (p5.stage = .HashMove → p4.stage = .HashMove) := by
    rcases h5s with h | h
    · rw [h]; exact ⟨Nat.le_refl _, fun h => h⟩
    · rw [h]; constructor
      · cases p4.stage <;> simp [Stage.idx]
      · intro hc; cases hc
  have hstage34 : p3.stage.idx ≤ p4.stage.idx ∧ (p4.stage = .HashMove → p3.stage = .HashMove) := by
    rcases h4s with h | h
    · rw [h]; exact ⟨Nat.le_refl _, fun h => h⟩
    · obtain ⟨h1, h2⟩ := h
      rw [h1]
      rcases h2 with h2 | h2 <;> rw [h2] <;>
        exact ⟨by simp [Stage.idx], by intro hc; cases hc⟩
  cases o with
  | some m =>
    refine ⟨by simp [h5t, h4t], by simp [h5th, h4th], ?_, ?_, ?_⟩
    · exact Nat.le_trans hstage34.1 hstage45.1
    · intro h; exact hstage34.2 (hstage45.2 h)
    · intro m' hm'
      simp only [Option.some.injEq] at hm'
      subst hm'
      rw [h4t] at h5y
      exact h5y m rfl
  | none =>
    obtain ⟨bt, bth, bs, _, _, by'⟩ := hbn
    refine ⟨by rw [bt, h5t, h4t], by rw [bth, h5th, h4th], ?_, ?_, ?_⟩
    · rw [bs]; exact Nat.le_trans hstage34.1 hstage45.1
    · rw [bs]; intro h; exact hstage34.2 (hstage45.2 h)
    · intro m hm
      have := (by' m hm).1
      rw [h5t, h4t] at this
      exact this

theorem nextFromGenNoisy_facts (td : Td) (root skip : Bool) (ply : Int)
    (p1 : MovePicker) :
    (nextFromGenNoisy td root skip ply p1).2.ttMove = p1.ttMove ∧
    (nextFromGenNoisy td root skip ply p1).2.threshold = p1.threshold ∧
    p1.stage.idx ≤ (nextFromGenNoisy td root skip ply p1).2.stage.idx ∧
    ((nextFromGenNoisy td root skip ply p1).2.stage = .HashMove →
      p1.stage = .HashMove) ∧
    (∀ m, (nextFromGenNoisy td root skip ply p1).1 = some m → m ≠ p1.ttMove) := by
  obtain ⟨h2t, h2th, h2s, _, _⟩ := phaseGenerateNoisy_facts td p1
  unfold nextFromGenNoisy
  set p2 := phaseGenerateNoisy td p1 with hp2
  rcases hg : (if p2.stage = .GoodNoisy then goodNoisyLoop td root p2.list.length p2
               else (none, p2)) with ⟨o, p3⟩
  have h3 : p3.ttMove = p2.ttMove ∧ p3.threshold = p2.threshold ∧
      (p3.stage = p2.stage ∨ p3.stage = .GenerateQuiet) ∧
      (∀ m, o = some m → m ≠ p2.ttMove) := by
    split at hg
    · obtain ⟨a, b, _, d, _⟩ := goodNoisyLoop_facts td root p2.list.length p2
      have c := goodNoisyLoop_stage_cases td root p2.list.length p2
      rw [hg] at a b c d
      exact ⟨a, b, c, fun m hm => (d m hm).1⟩
    · obtain ⟨rfl, rfl⟩ := Prod.mk.injEq .. ▸ hg
      exact ⟨rfl, rfl, Or.inl rfl, by simp⟩
  obtain ⟨h3t, h3th, h3s, h3y⟩ := h3
  have hstage12 : p1.stage.idx ≤ p2.stage.idx ∧ (p2.stage = .HashMove → p1.stage = .HashMove) := by
    rcases h2s with h | h
    · rw [h]; exact ⟨Nat.le_refl _, fun h => h⟩
    · obtain ⟨h1, h2⟩ := h
      rw [h1, h2]
      exact ⟨by simp [Stage.idx], by intro hc; cases hc⟩
  have hstage23 : p2.stage.idx ≤ p3.stage.idx ∧ (p3.stage = .HashMove → p2.stage = .HashMove) := by
    rcases h3s with h | h
    · rw [h]; exact ⟨Nat.le_refl _, fun h => h⟩
    · rw [h]; constructor
      · split at hg
        · rename_i hgood
          rw [hgood]
          simp [Stage.idx]
        · have hp : p3 = p2 := by injection hg with h1 h2; exact h2.symm
          rw [← hp, h]
      · intro hc; cases hc
  simp only [hg]
  cases o with
  | some m =>
    refine ⟨by rw [h3t, h2t], by rw [h3th, h2th], ?_, ?_, ?_⟩
    · exact Nat.le_trans hstage12.1 hstage23.1
    · intro h; exact hstage12.2 (hstage23.2 h)
    · intro m' hm'
      simp only [Option.some.injEq] at hm'
      subst hm'
      rw [h2t] at h3y
      exact h3y m rfl
  | none =>
    obtain ⟨a, b, c, d, e⟩ := nextFromGenQuiet_facts td root skip ply p3
    refine ⟨by rw [a, h3t, h2t], by rw [b, h3th, h2th], ?_, ?_, ?_⟩
    · exact Nat.le_trans hstage12.1 (Nat.le_trans hstage23.1 c)
    · intro h; exact hstage12.2 (hstage23.2 (d h))
    · intro m hm
      have := e m hm
      rw [h3t, h2t] at this
      exact this

/-- Core facts about one `next` call, valid for every (even unreachable)
state: the TT move and the ProbCut threshold are never mutated, the stage
after the call is never `HashMove`, the stage is monotone non-decreasing
in declaration order, and a yielded move equals the TT move only when the
call started in stage `HashMove`. -/
theorem next_facts (td : Td) (root skip : Bool) (ply : Int) (p : MovePicker) :
    (next td root skip ply p).2.ttMove = p.ttMove ∧
    (next td root skip ply p).2.threshold = p.threshold ∧
    (next td root skip ply p).2.stage ≠ .HashMove ∧
    p.stage.idx ≤ (next td root skip ply p).2.stage.idx ∧
    (∀ m, (next td root skip ply p).1 = some m → m = p.ttMove →
      p.stage = .HashMove) := by
  unfold next
  split
  · rename_i h
    exact ⟨rfl, rfl, by simp, by rw [h.1]; simp [Stage.idx], fun _ _ _ => h.1⟩
  · rename_i h
    by_cases hh : p.stage = .HashMove
    · rw [if_pos hh]
      obtain ⟨a, b, c, d, e⟩ :=
        nextFromGenNoisy_facts td root skip ply { p with stage := .GenerateNoisy }
      refine ⟨a, b, ?_, by rw [hh]; exact Nat.zero_le _, fun _ _ _ => hh⟩
      intro hc
      exact absurd (d hc) (by simp)
    · simp only [if_neg hh]
      obtain ⟨a, b, c, d, e⟩ := nextFromGenNoisy_facts td root skip ply p
      exact ⟨a, b, fun hc => hh (d hc), c, fun m hm htt => absurd htt (e m hm)⟩

theorem stagesTrace_head (td : Td) (root : Bool) (p : MovePicker)
    (inputs : List (Bool × Int)) :
    (stagesTrace td root p inputs).head? = some p.stage := by
  cases inputs with
  | nil => rfl
  | cons x rest => rcases x with ⟨skip, ply⟩; rfl

/-- Along any run, no call entered in a stage other than `HashMove` ever
yields the (preserved) TT move of the picker. -/
theorem runTrace_no_tt (td : Td) (root : Bool) :
    ∀ (inputs : List (Bool × Int)) (p : MovePicker), p.stage ≠ .HashMove →
      ∀ x ∈ runTrace td root p inputs, x.2 ≠ some p.ttMove := by
  intro inputs
  induction inputs with
  | nil => intro p _ x hx; simp [runTrace] at hx
  | cons a rest ih =>
    rcases a with ⟨skip, ply⟩
    intro p hp x hx
    obtain ⟨ft, _, fs, _, fy⟩ := next_facts td root skip ply p
    simp only [runTrace, List.mem_cons] at hx
    rcases hx with rfl | hx
    · intro ho
      exact hp (fy _ ho rfl)
    · have := ih (next td root skip ply p).2 fs x hx
      rw [ft] at this
      exact this

/-- Along any run from any state, the TT move is yielded at most once, and
only by a call whose entry stage is `HashMove`. -/
theorem runTrace_tt_once (td : Td) (root : Bool) :
    ∀ (inputs : List (Bool × Int)) (p : MovePicker),
      ((runTrace td root p inputs).filter
        (fun x => x.2 = some p.ttMove)).length ≤ 1 ∧
      ∀ x ∈ runTrace td root p inputs, x.2 = some p.ttMove →
        x.1 = .HashMove := by
  intro inputs
  induction inputs with
  | nil => intro p; simp [runTrace]
  | cons a rest ih =>
    rcases a with ⟨skip, ply⟩
    intro p
    obtain ⟨ft, _, fs, _, fy⟩ := next_facts td root skip ply p
    have tail_no : (next td root skip ply p).1 = some p.ttMove →
        ∀ x ∈ runTrace td root (next td root skip ply p).2 rest,
          x.2 ≠ some p.ttMove := by
      intro _ x hx
      have := runTrace_no_tt td root rest (next td root skip ply p).2 fs x hx
      rw [ft] at this
      exact this
    constructor
    · by_cases ho : (next td root skip ply p).1 = some p.ttMove
      · have hnil : (runTrace td root (next td root skip ply p).2 rest).filter
            (fun x => x.2 = some p.ttMove) = [] := by
          apply List.filter_eq_nil_iff.mpr
          intro x hx
          simpa using tail_no ho x hx
        simp only [runTrace, List.filter_cons]
        rw [if_pos (by simpa using ho), hnil]
        simp
      · have := (ih (next td root skip ply p).2).1
        rw [ft] at this
        simp only [runTrace, List.filter_cons]
        rw [if_neg (by simpa using ho)]
        exact this
    · intro x hx hxtt
      simp only [runTrace, List.mem_cons] at hx
      rcases hx with rfl | hx
      · exact fy _ hxtt rfl
      · have := (ih (next td root skip ply p).2).2 x hx
        rw [ft] at this
        exact this hxtt

/-- Claim C10.  Across any sequence of `next` calls the stage field is
monotone non-decreasing in the declaration order `HashMove, GenerateNoisy,
GoodNoisy, GenerateQuiet, Quiet, BadNoisy`: every single call moves the
stage forward or leaves it in place, and the whole stage sequence of a run
is a `≤`-chain, so a stage that has been left is never re-entered. -/
theorem stage_monotone (td : Td) (root : Bool) (p : MovePicker)
    (inputs : List (Bool × Int)) :
    (∀ skip ply, p.stage.idx ≤ (next td root skip ply p).2.stage.idx) ∧
    (stagesTrace td root p inputs).Chain' (fun a b => a.idx ≤ b.idx) := by
  constructor
  · intro skip ply
    exact (next_facts td root skip ply p).2.2.2.1
  · induction inputs generalizing p with
    | nil => simp [stagesTrace]
    | cons a rest ih =>
      rcases a with ⟨skip, ply⟩
      rw [stagesTrace, List.chain'_cons']
      refine ⟨?_, ih _⟩
      intro b hb
      rw [stagesTrace_head] at hb
      simp only [Option.mem_def, Option.some.injEq] at hb
      subst hb
      exact (next_facts td root skip ply p).2.2.2.1

/-- Claim C1.  For a picker constructed in any of the three modes and any
sequence of `next` calls, the seeded TT move is yielded at most once in
total, and any call that yields it was entered in stage `HashMove` — in
particular the `GoodNoisy`, `Quiet` and `BadNoisy` stages never yield a
move equal to the TT move. -/
theorem tt_move_once (td : Td) (root : Bool) (p0 : MovePicker)
    (inputs : List (Bool × Int)) (h : InitialPicker p0) :
    ((runTrace td root p0 inputs).filter
      (fun x => x.2 = some p0.ttMove)).length ≤ 1 ∧
    ∀ x ∈ runTrace td root p0 inputs, x.2 = some p0.ttMove →
      x.1 = .HashMove := by
  exact runTrace_tt_once td root inputs p0

/-- Witness for C1 at a concrete input: the main-search mode seeded with TT
move 5 on a one-capture board, run for three calls. -/
theorem tt_move_once_witness :
    InitialPicker (MovePicker.new 5) ∧
    (((runTrace tdW false (MovePicker.new 5)
        [(false, 0), (false, 0), (false, 0)]).filter
          (fun x => x.2 = some (MovePicker.new 5).ttMove)).length ≤ 1 ∧
      ∀ x ∈ runTrace tdW false (MovePicker.new 5)
        [(false, 0), (false, 0), (false, 0)],
          x.2 = some (MovePicker.new 5).ttMove → x.1 = .HashMove) :=
  ⟨Or.inl ⟨5, rfl⟩,
    tt_move_once tdW false (MovePicker.new 5)
      [(false, 0), (false, 0), (false, 0)] (Or.inl ⟨5, rfl⟩)⟩

/-! ## Selection bounds and membership -/

theorem find_best_score_index_lt (l : List Entry) (h : l ≠ []) :
    find_best_score_index l < l.length := by
  have aux : ∀ (t : List Entry) (b : Nat) (s : Int) (k : Nat), b < k ∨ b = 0 →
      ((t.foldl
        (fun (acc : Nat × Int × Nat) e =>
          if acc.2.1 ≤ e.score then (acc.2.2, e.score, acc.2.2 + 1)
          else (acc.1, acc.2.1, acc.2.2 + 1))
        (b, s, k)).1 < (t.foldl
        (fun (acc : Nat × Int × Nat) e =>
          if acc.2.1 ≤ e.score then (acc.2.2, e.score, acc.2.2 + 1)
          else (acc.1, acc.2.1, acc.2.2 + 1))
        (b, s, k)).2.2 ∨ (t.foldl
        (fun (acc : Nat × Int × Nat) e =>
          if acc.2.1 ≤ e.score then (acc.2.2, e.score, acc.2.2 + 1)
          else (acc.1, acc.2.1, acc.2.2 + 1))
        (b, s, k)).1 = 0) ∧
      (t.foldl
        (fun (acc : Nat × Int × Nat) e =>
          if acc.2.1 ≤ e.score then (acc.2.2, e.score, acc.2.2 + 1)
          else (acc.1, acc.2.1, acc.2.2 + 1))
        (b, s, k)).2.2 = k + t.length := by
    intro t
    induction t with
    | nil => intro b s k hb; exact ⟨hb.imp id id, rfl⟩
    | cons e rest ih =>
      intro b s k hb
      simp only [List.foldl_cons]
      by_cases hc : s ≤ e.score
      · rw [if_pos hc]
        have := ih k e.score (k + 1) (Or.inl (Nat.lt_succ_self k))
        exact ⟨this.1, by rw [this.2]; simp [List.length_cons]; omega⟩
      · rw [if_neg hc]
        have := ih b s (k + 1) (by omega)
        exact ⟨this.1, by rw [this.2]; simp [List.length_cons]; omega⟩
  have hlen : 0 < l.length := List.length_pos.mpr h
  have := aux l 0 INT32_MIN 0 (Or.inr rfl)
  unfold find_best_score_index
  rcases this.1 with h1 | h1
  · rw [this.2] at h1; simpa using h1
  · rw [h1]; exact hlen

theorem mem_removeSwap (l : List Entry) (i : Nat) :
    ∀ e ∈ removeSwap l i, e ∈ l := by
  intro e he
  unfold removeSwap at he
  have he' := List.mem_of_mem_dropLast he
  rcases List.mem_or_eq_of_mem_set he' with h | h
  · exact h
  · rcases eq_or_ne l [] with rfl | hne
    · simp [removeSwap] at he
    · rw [List.getLast?_eq_getLast l hne] at h
      simp only [Option.getD_some] at h
      rw [h]
      exact List.getLast_mem hne

theorem scoreNoisy_ok (td : Td) (tt : Nat) (l : List Entry)
    (h : ∀ e ∈ l, e.mv ∈ td.noisyMoves) :
    NoisyEntriesOk td tt (scoreNoisy td tt l) := by
  intro e he
  rcases List.mem_map.mp he with ⟨e0, he0, rfl⟩
  unfold scoreNoisyE
  split
  · rename_i hcase
    refine ⟨h e0 he0, ?_⟩
    intro hne
    exact absurd hcase hne
  · exact ⟨h e0 he0, fun _ => rfl⟩

theorem noisyEntriesOk_removeSwap (td : Td) (tt : Nat) (l : List Entry)
    (h : NoisyEntriesOk td tt l) (i : Nat) :
    NoisyEntriesOk td tt (removeSwap l i) :=
  fun e he => h e (mem_removeSwap l i e he)

/-! ## Good-noisy stage: SEE bookkeeping -/

theorem goodNoisyLoop_preserves (td : Td) (root : Bool) :
    ∀ (fuel : Nat) (p : MovePicker), p.list.length ≤ fuel →
      NoisyEntriesOk td p.ttMove p.list →
      (∀ m ∈ p.badNoisy, BadPushProp td p m) →
      NoisyEntriesOk td p.ttMove (goodNoisyLoop td root fuel p).2.list ∧
      (∀ m ∈ (goodNoisyLoop td root fuel p).2.badNoisy, BadPushProp td p m) ∧
      ((goodNoisyLoop td root fuel p).1 = none →
        (goodNoisyLoop td root fuel p).2.list = []) ∧
      (∀ m, (goodNoisyLoop td root fuel p).1 = some m → m ∈ td.noisyMoves) := by
  intro fuel
  induction fuel with
  | zero =>
    intro p hlen hok hbad
    have : p.list = [] := List.length_eq_zero.mp (Nat.le_zero.mp hlen)
    simp only [goodNoisyLoop]
    refine ⟨?_, hbad, fun _ => this, by simp⟩
    rw [this]
    intro e he
    simp at he
  | succ n ih =>
    intro p hlen hok hbad
    simp only [goodNoisyLoop]
    by_cases hemp : p.list.isEmpty
    · rw [if_pos hemp]
      have : p.list = [] := List.isEmpty_iff.mp hemp
      refine ⟨?_, hbad, fun _ => this, by simp⟩
      rw [this]
      intro e he
      simp at he
    · rw [if_neg hemp]
      have hne : p.list ≠ [] := by
        intro hc
        rw [hc] at hemp
        simp at hemp
      have hi : find_best_score_index p.list < p.list.length :=
        find_best_score_index_lt p.list hne
      have hmem : p.list.getD (find_best_score_index p.list) default ∈ p.list :=
        getD_mem _ _ _ hi
      have hrest : (removeSwap p.list (find_best_score_index p.list)).length ≤ n := by
        rw [removeSwap_length]
        omega
      by_cases htt : (p.list.getD (find_best_score_index p.list) default).mv = p.ttMove
      · rw [if_pos htt]
        exact ih { p with list := removeSwap p.list (find_best_score_index p.list) }
          hrest (noisyEntriesOk_removeSwap td p.ttMove p.list hok _) hbad
      · rw [if_neg htt]
        by_cases hsee : td.see (p.list.getD (find_best_score_index p.list) default).mv
            ((p.threshold.getD (Int.tdiv
              (-(p.list.getD (find_best_score_index p.list) default).score) 46 + 109)))
        · rw [if_pos hsee]
          refine ⟨?_, hbad, by simp, ?_⟩
          · intro e he
            by_cases hroot : root = true
            · rw [hroot] at he
              simp only [if_pos] at he
              exact scoreNoisy_ok td p.ttMove _
                (fun e' he' => (noisyEntriesOk_removeSwap td p.ttMove p.list hok _ e' he').1)
                e he
            · have hroot' : root = false := by
                cases root
                · rfl
                · exact absurd rfl hroot
              rw [hroot'] at he
              simp only [Bool.false_eq_true, if_neg, ite_false] at he
              exact noisyEntriesOk_removeSwap td p.ttMove p.list hok _ e he
          · intro m hm
            simp only [Option.some.injEq] at hm
            subst hm
            exact (hok _ hmem).1
        · rw [if_neg hsee]
          have hscore : (p.list.getD (find_best_score_index p.list) default).score =
              td.noisyScore (p.list.getD (find_best_score_index p.list) default).mv :=
            (hok _ hmem).2 htt
          refine ih
            { p with
              list := removeSwap p.list (find_best_score_index p.list),
              badNoisy := p.badNoisy ++
                [(p.list.getD (find_best_score_index p.list) default).mv] }
            hrest (noisyEntriesOk_removeSwap td p.ttMove p.list hok _) ?_
          intro m hm
          rcases List.mem_append.mp hm with h | h
          · exact hbad m h
          · simp only [List.mem_singleton] at h
            subst h
            refine ⟨(hok _ hmem).1, htt, ?_⟩
            rw [← hscore]
            exact Bool.not_eq_true _ ▸ (by simpa using hsee)

/-! ## Invariant preservation through `next` -/

theorem phaseGenerateNoisy_inv (td : Td) (p : MovePicker)
    (h : PickerInv td p) : PickerInv td (phaseGenerateNoisy td p) := by
  unfold phaseGenerateNoisy
  split
  · rename_i hs
    have hlist : p.list = [] := h.1 (Or.inr (Or.inl hs))
    refine ⟨by simp, ?_, ?_⟩
    · intro _
      rw [hlist]
      apply scoreNoisy_ok
      intro e he
      simp only [List.nil_append] at he
      rcases List.mem_map.mp he with ⟨m, hm, rfl⟩
      exact hm
    · intro m hm
      exact badPushProp_transfer td p _ m rfl rfl (h.2.2 m hm)
  · exact h

theorem phaseGenerateQuiet_inv (td : Td) (skip : Bool) (ply : Int)
    (p : MovePicker) (h : PickerInv td p) :
    PickerInv td (phaseGenerateQuiet td skip ply p) := by
  unfold phaseGenerateQuiet
  split
  · split
    · refine ⟨by simp, by simp, ?_⟩
      intro m hm
      exact badPushProp_transfer td p _ m rfl rfl (h.2.2 m hm)
    · refine ⟨by simp, by simp, ?_⟩
      intro m hm
      exact badPushProp_transfer td p _ m rfl rfl (h.2.2 m hm)
  · exact h

theorem goodNoisyLoop_inv (td : Td) (root : Bool) (p : MovePicker)
    (hs : p.stage = .GoodNoisy) (h : PickerInv td p) :
    PickerInv td (goodNoisyLoop td root p.list.length p).2 := by
  obtain ⟨hok', hbad', hnone, _⟩ :=
    goodNoisyLoop_preserves td root p.list.length p (Nat.le_refl _)
      (h.2.1 hs) h.2.2
  obtain ⟨ft, fth, fnone, fsome, _⟩ := goodNoisyLoop_facts td root p.list.length p
  refine ⟨?_, ?_, ?_⟩
  · intro hc
    cases ho : (goodNoisyLoop td root p.list.length p).1 with
    | none => exact hnone ho
    | some m =>
      rw [(fsome m ho).2, hs] at hc
      simp at hc
  · intro _
    rw [ft]
    exact hok'
  · intro m hm
    exact badPushProp_transfer td p _ m ft fth (hbad' m hm)

theorem quietLoop_inv (td : Td) (root : Bool) (ply : Int) (fuel : Nat)
    (p : MovePicker) (hs : p.stage = .Quiet) (h : PickerInv td p) :
    PickerInv td (quietLoop td root ply fuel p).2 := by
  obtain ⟨ft, fth, fstage, _, fbad, _⟩ := quietLoop_facts td root ply fuel p
  have hstage : (quietLoop td root ply fuel p).2.stage = .Quiet ∨
      (quietLoop td root ply fuel p).2.stage = .BadNoisy := by
    rcases fstage with hh | hh
    · rw [hh, hs]; exact Or.inl rfl
    · exact Or.inr hh
  refine ⟨?_, ?_, ?_⟩
  · intro hc
    rcases hstage with hh | hh <;> rw [hh] at hc <;> simp at hc
  · intro hc
    rcases hstage with hh | hh <;> rw [hh] at hc <;> simp at hc
  · intro m hm
    rw [fbad] at hm
    exact badPushProp_transfer td p _ m ft fth (h.2.2 m hm)

theorem badNoisyLoop_inv (td : Td) (fuel : Nat) (p : MovePicker)
    (h : PickerInv td p) : PickerInv td (badNoisyLoop fuel p).2 := by
  obtain ⟨ft, fth, fs, fl, fb, _⟩ := badNoisyLoop_facts fuel p
  exact pickerInv_transfer td p _ h fl ft fth fs fb

theorem nextFromGenQuiet_inv (td : Td) (root skip : Bool) (ply : Int)
    (p3 : MovePicker) (h : PickerInv td p3) :
    PickerInv td (nextFromGenQuiet td root skip ply p3).2 := by
  have h4 : PickerInv td (phaseGenerateQuiet td skip ply p3) :=
    phaseGenerateQuiet_inv td skip ply p3 h
  unfold nextFromGenQuiet
  set p4 := phaseGenerateQuiet td skip ply p3 with hp4
  rcases hq : (if p4.stage = .Quiet ∧ !skip then quietLoop td root ply p4.list.length p4
               else if p4.stage = .Quiet then (none, { p4 with stage := .BadNoisy })
               else (none, p4)) with ⟨o, p5⟩
  have h5 : PickerInv td p5 := by
    split at hq
    · rename_i hc
      have := quietLoop_inv td root ply p4.list.length p4 hc.1 h4
      rw [hq] at this
      exact this
    · split at hq
      · have hp : p5 = { p4 with stage := .BadNoisy } := by
          injection hq with h1 h2; exact h2.symm
        rw [hp]
        refine ⟨by simp, by simp, ?_⟩
        intro m hm
        exact badPushProp_transfer td p4 _ m rfl rfl (h4.2.2 m hm)
      · have hp : p5 = p4 := by injection hq with h1 h2; exact h2.symm
        rw [hp]; exact h4
  simp only [hq]
  cases o with
  | some m => exact h5
  | none => exact badNoisyLoop_inv td _ p5 h5

theorem nextFromGenNoisy_inv (td : Td) (root skip : Bool) (ply : Int)
    (p1 : MovePicker) (h : PickerInv td p1) :
    PickerInv td (nextFromGenNoisy td root skip ply p1).2 := by
  have h2 : PickerInv td (phaseGenerateNoisy td p1) :=
    phaseGenerateNoisy_inv td p1 h
  unfold nextFromGenNoisy
  set p2 := phaseGenerateNoisy td p1 with hp2
  rcases hg : (if p2.stage = .GoodNoisy then goodNoisyLoop td root p2.list.length p2
               else (none, p2)) with ⟨o, p3⟩
  have h3 : PickerInv td p3 := by
    split at hg
    · rename_i hc
      have := goodNoisyLoop_inv td root p2 hc h2
      rw [hg] at this
      exact this
    · have hp : p3 = p2 := by injection hg with h1 h2; exact h2.symm
      rw [hp]; exact h2
  simp only [hg]
  cases o with
  | some m => exact h3
  | none => exact nextFromGenQuiet_inv td root skip ply p3 h3

theorem next_preserves_inv (td : Td) (root skip : Bool) (ply : Int)
    (p : MovePicker) (h : PickerInv td p) :
    PickerInv td (next td root skip ply p).2 := by
  unfold next
  split
  · rename_i hc
    refine ⟨?_, by simp, ?_⟩
    · intro _
      exact h.1 (Or.inl hc.1)
    · intro m hm
      exact badPushProp_transfer td p _ m rfl rfl (h.2.2 m hm)
  · by_cases hh : p.stage = .HashMove
    · rw [if_pos hh]
      apply nextFromGenNoisy_inv
      refine ⟨?_, by simp, ?_⟩
      · intro _
        exact h.1 (Or.inl hh)
      · intro m hm
        exact badPushProp_transfer td p _ m rfl rfl (h.2.2 m hm)
    · rw [if_neg hh]
      exact nextFromGenNoisy_inv td root skip ply p h

/-- Every reachable picker state satisfies the invariant. -/
theorem reachable_inv (td : Td) (root : Bool) (p : MovePicker)
    (h : Reachable td root p) : PickerInv td p := by
  induction h with
  | new tt =>
    refine ⟨fun _ => rfl, ?_, by intro m hm; simp [MovePicker.new] at hm⟩
    intro hc
    unfold MovePicker.new at hc
    dsimp at hc
    split at hc <;> cases hc
  | probcut t =>
    refine ⟨fun _ => rfl, ?_, ?_⟩
    · intro hc
      simp [MovePicker.newProbcut] at hc
    · intro m hm
      simp [MovePicker.newProbcut] at hm
  | qsearch =>
    refine ⟨fun _ => rfl, ?_, ?_⟩
    · intro hc
      simp [MovePicker.newQsearch] at hc
    · intro m hm
      simp [MovePicker.newQsearch] at hm
  | step skip ply p hp ih => exact next_preserves_inv td root skip ply p ih

/-! ## Yields under `skip_quiets = true` -/

theorem nextFromGenQuiet_skip_yield (td : Td) (root : Bool) (ply : Int)
    (p3 : MovePicker) (h : PickerInv td p3) :
    ∀ m, (nextFromGenQuiet td root true ply p3).1 = some m →
      m ∈ td.noisyMoves := by
  have h4 : PickerInv td (phaseGenerateQuiet td true ply p3) :=
    phaseGenerateQuiet_inv td true ply p3 h
  unfold nextFromGenQuiet
  set p4 := phaseGenerateQuiet td true ply p3 with hp4
  rcases hq : (if p4.stage = .Quiet ∧ !true then quietLoop td root ply p4.list.length p4
               else if p4.stage = .Quiet then (none, { p4 with stage := .BadNoisy })
               else (none, p4)) with ⟨o, p5⟩
  have hkey : o = none ∧ p5.badNoisy = p4.badNoisy := by
    split at hq
    · rename_i hc
      simp at hc
    · split at hq
      · have h1 : none = o := by injection hq with h1 h2
        have h2 : { p4 with stage := Stage.BadNoisy } = p5 := by
          injection hq with h1 h2
        exact ⟨h1.symm, by rw [← h2]⟩
      · have h1 : none = o := by injection hq with h1 h2
        have h2 : p4 = p5 := by injection hq with h1 h2
        exact ⟨h1.symm, by rw [← h2]⟩
  obtain ⟨rfl, hb⟩ := hkey
  simp only [hq]
  intro m hm
  obtain ⟨_, _, _, _, _, fy⟩ :=
    badNoisyLoop_facts (p5.badNoisy.length - p5.badNoisyIdx) p5
  have hmem := (fy m hm).2
  rw [hb] at hmem
  exact (h4.2.2 m hmem).1

theorem nextFromGenNoisy_skip_yield (td : Td) (root : Bool) (ply : Int)
    (p1 : MovePicker) (h : PickerInv td p1) :
    ∀ m, (nextFromGenNoisy td root true ply p1).1 = some m →
      m ∈ td.noisyMoves := by
  have h2 : PickerInv td (phaseGenerateNoisy td p1) :=
    phaseGenerateNoisy_inv td p1 h
  unfold nextFromGenNoisy
  set p2 := phaseGenerateNoisy td p1 with hp2
  rcases hg : (if p2.stage = .GoodNoisy then goodNoisyLoop td root p2.list.length p2
               else (none, p2)) with ⟨o, p3⟩
  have h3 : PickerInv td p3 := by
    split at hg
    · rename_i hc
      have := goodNoisyLoop_inv td root p2 hc h2
      rw [hg] at this
      exact this
    · have hp : p3 = p2 := by injection hg with h1 h2; exact h2.symm
      rw [hp]; exact h2
  have hyield : ∀ m, o = some m → m ∈ td.noisyMoves := by
    split at hg
    · rename_i hc
      obtain ⟨_, _, _, hy⟩ :=
        goodNoisyLoop_preserves td root p2.list.length p2 (Nat.le_refl _)
          (h2.2.1 hc) h2.2.2
      intro m hm
      exact hy m (by rw [hg]; exact hm)
    · intro m hm
      have : o = none := by injection hg with h1 h2; exact h1.symm
      rw [this] at hm
      cases hm
  simp only [hg]
  cases o with
  | some m =>
    intro m' hm'
    simp only [Option.some.injEq] at hm'
    subst hm'
    exact hyield m rfl
  | none => exact nextFromGenQuiet_skip_yield td root ply p3 h3

theorem next_skip_yield (td : Td) (root : Bool) (ply : Int) (p : MovePicker)
    (h : PickerInv td p) :
    ∀ m, (next td root true ply p).1 = some m →
      (p.stage = .HashMove ∧ m = p.ttMove) ∨ m ∈ td.noisyMoves := by
  unfold next
  split
  · rename_i hc
    intro m hm
    simp only [Option.some.injEq] at hm
    exact Or.inl ⟨hc.1, hm.symm⟩
  · by_cases hh : p.stage = .HashMove
    · rw [if_pos hh]
      intro m hm
      refine Or.inr (nextFromGenNoisy_skip_yield td root ply _ ?_ m hm)
      refine ⟨?_, by simp, ?_⟩
      · intro _
        exact h.1 (Or.inl hh)
      · intro m' hm'
        exact badPushProp_transfer td p _ m' rfl rfl (h.2.2 m' hm')
    · rw [if_neg hh]
      intro m hm
      exact Or.inr (nextFromGenNoisy_skip_yield td root ply p h m hm)

/-- Claim C3 (amended).  On every reachable picker state, when the board's
noisy generation produces only noisy moves, a `next(skip_quiets = true,
ply)` call never returns a quiet move — with the single exception of the
seeded TT move, which is returned from the `HashMove` stage regardless of
whether it is quiet. -/
theorem skip_quiets_yields_noisy (td : Td) (root : Bool) (ply : Int)
    (p : MovePicker) (hr : Reachable td root p)
    (hgen : ∀ m ∈ td.noisyMoves, td.isNoisy m = true) :
    ∀ m, (next td root true ply p).1 = some m →
      td.isNoisy m = true ∨ (m = p.ttMove ∧ p.stage = .HashMove) := by
  intro m hm
  rcases next_skip_yield td root ply p (reachable_inv td root p hr) m hm with
    ⟨hs, rfl⟩ | hmem
  · exact Or.inr ⟨rfl, hs⟩
  · exact Or.inl (hgen m hmem)

/-- Witness for the amended C3 at a concrete input. -/
theorem skip_quiets_yields_noisy_witness :
    tdW.isNoisy 5 = true ∨
      (5 = (MovePicker.new 5).ttMove ∧ (MovePicker.new 5).stage = .HashMove) :=
  skip_quiets_yields_noisy tdW false 0 (MovePicker.new 5) (Reachable.new 5)
    (by intro m hm; simp [tdW] at hm; subst hm; rfl) 5 rfl

/-- Counterexample to C3 as stated: a main-search picker seeded with a
pseudo-legal quiet TT move returns that quiet move on a
`next(skip_quiets = true, ply)` call (from the `HashMove` stage). -/
theorem skip_quiets_counterexample :
    (next tdW false true 0 (MovePicker.new 5)).1 = some 5 ∧
      tdW.isNoisy 5 = false := ⟨rfl, rfl⟩

/-- Claim C5.  In the `GoodNoisy` stage, writing `e` for the selected entry
(the argmax of the remaining list) and assuming it is not the TT move: the
SEE threshold applied to `e.mv` is the caller's threshold when the picker
carries a ProbCut threshold and `-score/46 + 109` (truncating division)
otherwise; when `see` fails the move is appended to `bad_noisy` and this
selection yields nothing (the stage continues on the reduced list); when
`see` passes the move is yielded.  Consequently, on every reachable state,
every move in `bad_noisy` failed the SEE threshold computed from its
`score_noisy` score at the moment it was pushed. -/
theorem goodNoisy_see_contract (td : Td) (root : Bool) (p : MovePicker)
    (fuel : Nat) (hne : ¬ p.list.isEmpty)
    (htt : (p.list.getD (find_best_score_index p.list) default).mv ≠ p.ttMove) :
    (∀ t, p.threshold = some t →
      p.threshold.getD (Int.tdiv
        (-(p.list.getD (find_best_score_index p.list) default).score) 46 + 109) = t) ∧
    (p.threshold = none →
      p.threshold.getD (Int.tdiv
        (-(p.list.getD (find_best_score_index p.list) default).score) 46 + 109) =
        Int.tdiv (-(p.list.getD (find_best_score_index p.list) default).score) 46 + 109) ∧
    (td.see (p.list.getD (find_best_score_index p.list) default).mv
        (p.threshold.getD (Int.tdiv
          (-(p.list.getD (find_best_score_index p.list) default).score) 46 + 109)) = false →
      goodNoisyLoop td root (fuel + 1) p =
        goodNoisyLoop td root fuel
          { p with
            list := removeSwap p.list (find_best_score_index p.list),
            badNoisy := p.badNoisy ++
              [(p.list.getD (find_best_score_index p.list) default).mv] }) ∧
    (td.see (p.list.getD (find_best_score_index p.list) default).mv
        (p.threshold.getD (Int.tdiv
          (-(p.list.getD (find_best_score_index p.list) default).score) 46 + 109)) = true →
      goodNoisyLoop td root (fuel + 1) p =
        (some (p.list.getD (find_best_score_index p.list) default).mv,
          { p with
            list := if root then
                scoreNoisy td p.ttMove (removeSwap p.list (find_best_score_index p.list))
              else removeSwap p.list (find_best_score_index p.list) })) ∧
    (∀ root' q, Reachable td root' q → ∀ m ∈ q.badNoisy,
      td.see m (q.threshold.getD
        (Int.tdiv (-(td.noisyScore m)) 46 + 109)) = false) := by
  refine ⟨?_, ?_, ?_, ?_, ?_⟩
  · intro t ht; rw [ht]; rfl
  · intro ht; rw [ht]; rfl
  · intro hsee
    conv_lhs => rw [goodNoisyLoop]
    rw [if_neg hne, if_neg htt, if_neg (by rw [hsee]; exact Bool.false_ne_true)]
  · intro hsee
    conv_lhs => rw [goodNoisyLoop]
    rw [if_neg hne, if_neg htt, if_pos hsee]
  · intro root' q hq m hm
    exact ((reachable_inv td root' q hq).2.2 m hm).2.2

/-- Witness for C5: on the one-entry `GoodNoisy` state `pF` the selected
move 7 fails SEE against `-7/46 + 109 = 109`, so it is pushed to
`bad_noisy`, and after the loop finishes the reachable-state clause applies
to the resulting buffer. -/
theorem goodNoisy_see_contract_witness :
    goodNoisyLoop tdF false 1 pF =
      goodNoisyLoop tdF false 0
        { pF with
          list := removeSwap pF.list (find_best_score_index pF.list),
          badNoisy := pF.badNoisy ++
            [(pF.list.getD (find_best_score_index pF.list) default).mv] } :=
  (goodNoisy_see_contract tdF false pF 0 (by decide) (by decide)).2.2.1 (by decide)

/-! ## Stage-entry step lemmas -/

theorem next_at_genQuiet (td : Td) (root skip : Bool) (ply : Int)
    (p : MovePicker) (hs : p.stage = .GenerateQuiet) :
    next td root skip ply p = nextFromGenQuiet td root skip ply p := by
  unfold next nextFromGenNoisy phaseGenerateNoisy
  simp [hs]

theorem next_at_quiet (td : Td) (root skip : Bool) (ply : Int)
    (p : MovePicker) (hs : p.stage = .Quiet) :
    next td root skip ply p = nextFromGenQuiet td root skip ply p := by
  unfold next nextFromGenNoisy phaseGenerateNoisy
  simp [hs]

theorem next_at_badNoisy (td : Td) (root skip : Bool) (ply : Int)
    (p : MovePicker) (hs : p.stage = .BadNoisy) :
    next td root skip ply p =
      badNoisyLoop (p.badNoisy.length - p.badNoisyIdx) p := by
  unfold next nextFromGenNoisy phaseGenerateNoisy nextFromGenQuiet
    phaseGenerateQuiet
  simp [hs]

theorem next_at_genNoisy (td : Td) (root skip : Bool) (ply : Int)
    (p : MovePicker) (hs : p.stage = .GenerateNoisy) :
    next td root skip ply p =
      (match goodNoisyLoop td root
          (scoreNoisy td p.ttMove
            (p.list ++ td.noisyMoves.map (fun m => ⟨m, 0⟩))).length
          { p with
            stage := .GoodNoisy,
            list := scoreNoisy td p.ttMove
              (p.list ++ td.noisyMoves.map (fun m => ⟨m, 0⟩)) } with
       | (some m, p3) => (some m, p3)
       | (none, p3) => nextFromGenQuiet td root skip ply p3) := by
  unfold next nextFromGenNoisy phaseGenerateNoisy
  simp [hs]

theorem drain_congr (td : Td) (root skip : Bool) (ply : Int) (fuel : Nat)
    (p q : MovePicker)
    (h : next td root skip ply p = next td root skip ply q) :
    drain td root skip ply fuel p = drain td root skip ply fuel q := by
  cases fuel with
  | zero => rfl
  | succ n => unfold drain; rw [h]

/-! ## Drain characterization for the bad-SEE scenario (C7) -/

theorem drain_succ_some (td : Td) (root skip : Bool) (ply : Int) (fuel : Nat)
    (p p' : MovePicker) (m : Nat)
    (h : next td root skip ply p = (some m, p')) :
    drain td root skip ply (fuel + 1) p =
      m :: drain td root skip ply fuel p' := by
  conv_lhs => rw [drain]
  rw [h]

theorem drain_succ_none (td : Td) (root skip : Bool) (ply : Int) (fuel : Nat)
    (p p' : MovePicker) (h : next td root skip ply p = (none, p')) :
    drain td root skip ply (fuel + 1) p = [] := by
  conv_lhs => rw [drain]
  rw [h]

theorem selSort_nil (fuel : Nat) : selSort fuel [] = [] := by
  cases fuel <;> simp [selSort]

theorem selSort_cons (fuel : Nat) (l : List Entry) (h : ¬ l.isEmpty) :
    selSort (fuel + 1) l =
      l.getD (find_best_score_index l) default ::
        selSort fuel (removeSwap l (find_best_score_index l)) := by
  simp only [selSort]
  rw [if_neg h]

theorem scoreQuietE_id (td : Td) (ply : Int) (e : Entry) (h1 : e.mv ≠ 0)
    (h2 : e.score = td.quietScore ply e.mv) : scoreQuietE td 0 ply e = e := by
  unfold scoreQuietE
  rw [if_neg h1]
  obtain ⟨mv, sc⟩ := e
  simp_all

theorem scoreQuiet_id (td : Td) (ply : Int) (l : List Entry)
    (h : ∀ e ∈ l, e.mv ≠ 0 ∧ e.score = td.quietScore ply e.mv) :
    scoreQuiet td 0 ply l = l := by
  induction l with
  | nil => rfl
  | cons e t ih =>
    unfold scoreQuiet at ih ⊢
    simp only [List.map_cons]
    rw [scoreQuietE_id td ply e (h e (by simp)).1 (h e (by simp)).2,
      ih (fun e' he' => h e' (by simp [he']))]

/-- Draining a picker sitting in the `BadNoisy` stage yields the remaining
`bad_noisy` suffix in insertion order. -/
theorem drain_badNoisy (td : Td) (root : Bool) (ply : Int) :
    ∀ (fuel : Nat) (p : MovePicker), p.stage = .BadNoisy → p.ttMove = 0 →
      (∀ m ∈ p.badNoisy, m ≠ 0) →
      p.badNoisy.length - p.badNoisyIdx ≤ fuel →
      drain td root false ply fuel p = p.badNoisy.drop p.badNoisyIdx := by
  intro fuel
  induction fuel with
  | zero =>
    intro p hs htt hb hlen
    rw [List.drop_eq_nil_of_le (by omega)]
    rfl
  | succ n ih =>
    intro p hs htt hb hlen
    by_cases hidx : p.badNoisyIdx < p.badNoisy.length
    · obtain ⟨k, hfe⟩ : ∃ k, p.badNoisy.length - p.badNoisyIdx = k + 1 :=
        ⟨p.badNoisy.length - p.badNoisyIdx - 1, by omega⟩
      have hnext : next td root false ply p =
          (some (p.badNoisy.getD p.badNoisyIdx 0),
            { p with badNoisyIdx := p.badNoisyIdx + 1 }) := by
        rw [next_at_badNoisy td root false ply p hs, hfe]
        simp only [badNoisyLoop]
        rw [if_pos hidx,
          if_neg (by rw [htt]; exact hb _ (getD_mem _ _ _ hidx))]
      rw [drain_succ_some td root false ply n p _ _ hnext]
      have hrec := ih { p with badNoisyIdx := p.badNoisyIdx + 1 } hs htt hb
        (by simp only [List.length]; omega)
      rw [hrec]
      rw [List.drop_eq_getElem_cons hidx]
      simp only [List.getD_eq_getElem p.badNoisy 0 hidx]
    · have hnext : next td root false ply p = (none, p) := by
        rw [next_at_badNoisy td root false ply p hs,
          show p.badNoisy.length - p.badNoisyIdx = 0 by omega]
        simp only [badNoisyLoop]
      rw [drain_succ_none td root false ply n p p hnext,
        List.drop_eq_nil_of_le (by omega)]

/-- One non-skipped yield of the `Quiet` loop. -/
theorem quietLoop_yield (td : Td) (root : Bool) (ply : Int) (fuel : Nat)
    (p : MovePicker) (hemp : ¬ p.list.isEmpty)
    (htt : (p.list.getD (find_best_score_index p.list) default).mv ≠ p.ttMove) :
    quietLoop td root ply (fuel + 1) p =
      (some (p.list.getD (find_best_score_index p.list) default).mv,
        { p with
          list := if root then
              scoreQuiet td p.ttMove ply
                (removeSwap p.list (find_best_score_index p.list))
            else removeSwap p.list (find_best_score_index p.list) }) := by
  simp only [quietLoop]
  rw [if_neg hemp, if_neg htt]

/-- A `next` call entered in stage `Quiet` with `skip_quiets = false` runs
the `Quiet` loop and falls through to the `bad_noisy` drain. -/
theorem next_quiet_step (td : Td) (root : Bool) (ply : Int) (p : MovePicker)
    (hs : p.stage = .Quiet) :
    next td root false ply p =
      match quietLoop td root ply p.list.length p with
      | (some m, p5) => (some m, p5)
      | (none, p5) => badNoisyLoop (p5.badNoisy.length - p5.badNoisyIdx) p5 := by
  rw [next_at_quiet td root false ply p hs]
  unfold nextFromGenQuiet phaseGenerateQuiet
  simp [hs]

theorem selSortL_cons (l : List Entry) (h : ¬ l.isEmpty) :
    selSortL l =
      l.getD (find_best_score_index l) default ::
        selSortL (removeSwap l (find_best_score_index l)) := by
  have hne : l ≠ [] := by
    intro hc; rw [hc] at h; simp at h
  have h1 : l.length = (removeSwap l (find_best_score_index l)).length + 1 := by
    rw [removeSwap_length]
    have := List.length_pos.mpr hne
    omega
  unfold selSortL
  rw [h1, selSort_cons _ _ h]

/-- Draining a picker sitting in the `Quiet` stage with a well-scored quiet
list yields the quiet moves in descending selection order followed by the
whole `bad_noisy` buffer in insertion order. -/
theorem drain_quiet (td : Td) (root : Bool) (ply : Int) :
    ∀ (fuel : Nat) (p : MovePicker), p.stage = .Quiet → p.ttMove = 0 →
      p.badNoisyIdx = 0 →
      (∀ e ∈ p.list, e.mv ≠ 0 ∧ e.score = td.quietScore ply e.mv) →
      (∀ m ∈ p.badNoisy, m ≠ 0) →
      p.list.length + p.badNoisy.length ≤ fuel →
      drain td root false ply fuel p =
        (selSortL p.list).map (fun e => e.mv) ++ p.badNoisy := by
  intro fuel
  induction fuel with
  | zero =>
    intro p hs htt hidx hq hb hlen
    have h1 : p.list = [] := List.length_eq_zero.mp (by omega)
    have h2 : p.badNoisy = [] := List.length_eq_zero.mp (by omega)
    rw [h1, h2, selSortL, selSort_nil]
    rfl
  | succ n ih =>
    intro p hs htt hidx hq hb hlen
    by_cases hemp : p.list.isEmpty
    · have h1 : p.list = [] := List.isEmpty_iff.mp hemp
      have hnext : next td root false ply p =
          badNoisyLoop (p.badNoisy.length - p.badNoisyIdx)
            { p with stage := .BadNoisy } := by
        rw [next_quiet_step td root ply p hs,
          show p.list.length = 0 by rw [h1]; rfl]
        simp only [quietLoop]
      have hnextB : next td root false ply { p with stage := .BadNoisy } =
          badNoisyLoop (p.badNoisy.length - p.badNoisyIdx)
            { p with stage := .BadNoisy } :=
        next_at_badNoisy td root false ply { p with stage := .BadNoisy } rfl
      rw [drain_congr td root false ply (n + 1) p { p with stage := .BadNoisy }
        (hnext.trans hnextB.symm)]
      rw [drain_badNoisy td root ply (n + 1) { p with stage := .BadNoisy }
        rfl htt hb (by simpa using by omega)]
      rw [h1, selSortL, selSort_nil]
      simp [hidx]
    · have hne : p.list ≠ [] := by
        intro hc; rw [hc] at hemp; simp at hemp
      have hi : find_best_score_index p.list < p.list.length :=
        find_best_score_index_lt p.list hne
      have hei : p.list.getD (find_best_score_index p.list) default ∈ p.list :=
        getD_mem _ _ _ hi
      have hmv0 : (p.list.getD (find_best_score_index p.list) default).mv ≠ 0 :=
        (hq _ hei).1
      have hr : (if root then
            scoreQuiet td p.ttMove ply
              (removeSwap p.list (find_best_score_index p.list))
          else removeSwap p.list (find_best_score_index p.list)) =
          removeSwap p.list (find_best_score_index p.list) := by
        rw [htt]
        cases root
        · simp
        · simp only [if_pos]
          exact scoreQuiet_id td ply _
            (fun e' he' => hq e' (mem_removeSwap _ _ e' he'))
      have hnext : next td root false ply p =
          (some (p.list.getD (find_best_score_index p.list) default).mv,
            { p with list := removeSwap p.list (find_best_score_index p.list) }) := by
        obtain ⟨k, hlf⟩ : ∃ k, p.list.length = k + 1 := by
          have := List.length_pos.mpr hne
          exact ⟨p.list.length - 1, by omega⟩
        rw [next_quiet_step td root ply p hs, hlf,
          quietLoop_yield td root ply k p hemp (by rw [htt]; exact hmv0), hr]
      rw [drain_succ_some td root false ply n p _ _ hnext]
      have hrec := ih
        { p with list := removeSwap p.list (find_best_score_index p.list) }
        hs htt hidx
        (fun e' he' => hq e' (mem_removeSwap _ _ e' he'))
        hb
        (by
          simp only [removeSwap_length]
          have := List.length_pos.mpr hne
          omega)
      rw [hrec]
      rw [selSortL_cons p.list hemp]
      simp

/-- When every selected noisy move fails its SEE threshold, the `GoodNoisy`
stage yields nothing: the whole list is pushed into `bad_noisy` in
descending selection order and the picker advances to `GenerateQuiet`. -/
theorem goodNoisyLoop_all_fail (td : Td) (root : Bool)
    (hsee : ∀ m ∈ td.noisyMoves,
      td.see m (Int.tdiv (-(td.noisyScore m)) 46 + 109) = false) :
    ∀ (fuel : Nat) (p : MovePicker), p.list.length ≤ fuel →
      p.ttMove = 0 → p.threshold = none →
      (∀ e ∈ p.list, e.mv ∈ td.noisyMoves ∧ e.mv ≠ 0 ∧
        e.score = td.noisyScore e.mv) →
      goodNoisyLoop td root fuel p =
        (none, { p with
          list := [],
          stage := .GenerateQuiet,
          badNoisy := p.badNoisy ++
            (selSort fuel p.list).map (fun e => e.mv) }) := by
  intro fuel
  induction fuel with
  | zero =>
    intro p hlen htt hth hents
    obtain ⟨l, mtt, mth, ms, mb, mbi⟩ := p
    simp only at hlen hents ⊢
    have h1 : l = [] := List.length_eq_zero.mp (by omega)
    subst h1
    simp [goodNoisyLoop, selSort]
  | succ n ih =>
    intro p hlen htt hth hents
    obtain ⟨l, mtt, mth, ms, mb, mbi⟩ := p
    simp only at hlen htt hth hents ⊢
    subst htt hth
    by_cases hemp : l.isEmpty
    · have h1 : l = [] := List.isEmpty_iff.mp hemp
      subst h1
      simp [goodNoisyLoop, selSort]
    · have hne : l ≠ [] := by
        intro hc; rw [hc] at hemp; simp at hemp
      have hi := find_best_score_index_lt l hne
      have hmem := getD_mem l default _ hi
      obtain ⟨hmemN, hmv0, hsc⟩ := hents _ hmem
      conv_lhs => rw [goodNoisyLoop]
      simp only
      rw [if_neg (by simpa using hemp), if_neg hmv0]
      simp only [Option.getD_none]
      rw [hsc, if_neg (by rw [hsee _ hmemN]; exact Bool.false_ne_true)]
      rw [ih
        { list := removeSwap l (find_best_score_index l),
          ttMove := 0,
          threshold := none,
          stage := ms,
          badNoisy := mb ++ [(l.getD (find_best_score_index l) default).mv],
          badNoisyIdx := mbi }
        (by simp only [removeSwap_length]; have := List.length_pos.mpr hne; omega)
        rfl rfl
        (fun e' he' => hents e' (mem_removeSwap _ _ e' he'))]
      rw [selSort_cons n l hemp]
      simp

/-! ## Permutation and ordering facts about descending selection -/

theorem getD_append_left (l l' : List Entry) (i : Nat) (h : i < l.length) :
    (l ++ l').getD i default = l.getD i default := by
  rw [List.getD_eq_getElem _ _ (by simp; omega), List.getD_eq_getElem _ _ h]
  exact List.getElem_append_left h

theorem getD_concat_self (l : List Entry) (e : Entry) :
    (l ++ [e]).getD l.length default = e := by
  rw [List.getD_eq_getElem _ _ (by simp)]
  exact List.getElem_concat_length l e l.length rfl _

theorem removeSwap_perm (l : List Entry) (i : Nat) (h : i < l.length) :
    (removeSwap l i).Perm (l.eraseIdx i) := by
  have hne : l ≠ [] := by
    intro hc; rw [hc] at h; simp at h
  unfold removeSwap
  rw [List.set_eq_take_append_cons_drop, if_pos h,
    List.eraseIdx_eq_take_drop_succ]
  rcases hd : l.drop (i + 1) with _ | ⟨x, xs⟩
  · rw [List.dropLast_concat]
    simp
  · have hl : l.getLast? = (x :: xs).getLast? := by
      conv_lhs => rw [← List.take_append_drop (i + 1) l, hd]
      rw [List.getLast?_append_of_ne_nil _ (by simp)]
    rw [hl, List.getLast?_eq_getLast (x :: xs) (by simp), Option.getD_some]
    rw [List.dropLast_append_of_ne_nil _ (by simp),
      List.dropLast_cons_of_ne_nil (by simp)]
    refine List.Perm.append_left _ ?_
    conv_rhs => rw [← @List.dropLast_append_getLast _ (x :: xs) (by simp)]
    exact @List.perm_append_comm _ [(x :: xs).getLast (by simp)] (x :: xs).dropLast

theorem perm_getD_cons_eraseIdx (l : List Entry) (i : Nat) (h : i < l.length) :
    l.Perm (l.getD i default :: l.eraseIdx i) := by
  rw [List.getD_eq_getElem l default h, List.eraseIdx_eq_take_drop_succ]
  conv_lhs => rw [← List.take_append_drop i l, List.drop_eq_getElem_cons h]
  exact List.perm_middle

theorem selSort_perm : ∀ (fuel : Nat) (l : List Entry), l.length ≤ fuel →
    (selSort fuel l).Perm l := by
  intro fuel
  induction fuel with
  | zero =>
    intro l hlen
    have h1 : l = [] := List.length_eq_zero.mp (by omega)
    rw [h1]
    simp [selSort]
  | succ n ih =>
    intro l hlen
    by_cases hemp : l.isEmpty
    · have h1 : l = [] := List.isEmpty_iff.mp hemp
      rw [h1]
      simp [selSort]
    · have hne : l ≠ [] := by
        intro hc; rw [hc] at hemp; simp at hemp
      have hi := find_best_score_index_lt l hne
      rw [selSort_cons n l hemp]
      have h1 := ih (removeSwap l (find_best_score_index l))
        (by rw [removeSwap_length]; have := List.length_pos.mpr hne; omega)
      have h2 := removeSwap_perm l _ hi
      have h3 := perm_getD_cons_eraseIdx l _ hi
      exact (List.Perm.cons _ (h1.trans h2)).trans h3.symm

theorem selSortL_perm (l : List Entry) : (selSortL l).Perm l :=
  selSort_perm l.length l (Nat.le_refl _)

theorem selSort_subset : ∀ (fuel : Nat) (l : List Entry),
    ∀ e ∈ selSort fuel l, e ∈ l := by
  intro fuel
  induction fuel with
  | zero => intro l e he; simp [selSort] at he
  | succ n ih =>
    intro l e he
    by_cases hemp : l.isEmpty
    · rw [List.isEmpty_iff.mp hemp] at he ⊢
      simp [selSort] at he
    · have hne : l ≠ [] := by
        intro hc; rw [hc] at hemp; simp at hemp
      rw [selSort_cons n l hemp] at he
      rcases List.mem_cons.mp he with rfl | he
      · exact getD_mem _ _ _ (find_best_score_index_lt l hne)
      · exact mem_removeSwap _ _ e (ih _ e he)

/-- Full specification of the scalar argmax fold: the accumulated best
score is the running maximum and the accumulated index is the position of
its last occurrence. -/
theorem find_best_fold_spec (l : List Entry)
    (hsc : ∀ e ∈ l, INT32_MIN ≤ e.score) :
    (l.foldl
      (fun (acc : Nat × Int × Nat) e =>
        if acc.2.1 ≤ e.score then (acc.2.2, e.score, acc.2.2 + 1)
        else (acc.1, acc.2.1, acc.2.2 + 1))
      (0, INT32_MIN, 0)).2.2 = l.length ∧
    (l = [] ∨
      ((l.foldl
        (fun (acc : Nat × Int × Nat) e =>
          if acc.2.1 ≤ e.score then (acc.2.2, e.score, acc.2.2 + 1)
          else (acc.1, acc.2.1, acc.2.2 + 1))
        (0, INT32_MIN, 0)).1 < l.length ∧
      (l.foldl
        (fun (acc : Nat × Int × Nat) e =>
          if acc.2.1 ≤ e.score then (acc.2.2, e.score, acc.2.2 + 1)
          else (acc.1, acc.2.1, acc.2.2 + 1))
        (0, INT32_MIN, 0)).2.1 =
        (l.getD (l.foldl
          (fun (acc : Nat × Int × Nat) e =>
            if acc.2.1 ≤ e.score then (acc.2.2, e.score, acc.2.2 + 1)
            else (acc.1, acc.2.1, acc.2.2 + 1))
          (0, INT32_MIN, 0)).1 default).score ∧
      (∀ j, j < l.length → (l.getD j default).score ≤
        (l.foldl
          (fun (acc : Nat × Int × Nat) e =>
            if acc.2.1 ≤ e.score then (acc.2.2, e.score, acc.2.2 + 1)
            else (acc.1, acc.2.1, acc.2.2 + 1))
          (0, INT32_MIN, 0)).2.1) ∧
      (∀ j, (l.foldl
          (fun (acc : Nat × Int × Nat) e =>
            if acc.2.1 ≤ e.score then (acc.2.2, e.score, acc.2.2 + 1)
            else (acc.1, acc.2.1, acc.2.2 + 1))
          (0, INT32_MIN, 0)).1 < j → j < l.length →
        (l.getD j default).score <
        (l.foldl
          (fun (acc : Nat × Int × Nat) e =>
            if acc.2.1 ≤ e.score then (acc.2.2, e.score, acc.2.2 + 1)
            else (acc.1, acc.2.1, acc.2.2 + 1))
          (0, INT32_MIN, 0)).2.1))) := by
  induction l using List.reverseRecOn with
  | nil => exact ⟨rfl, Or.inl rfl⟩
  | append_singleton t e ih =>
    have hsct : ∀ e' ∈ t, INT32_MIN ≤ e'.score :=
      fun e' he' => hsc e' (List.mem_append.mpr (Or.inl he'))
    have hsce : INT32_MIN ≤ e.score := hsc e (by simp)
    obtain ⟨ihlen, ihspec⟩ := ih hsct
    rw [List.foldl_append] at *
    simp only [List.foldl_cons, List.foldl_nil]
    rcases ihspec with hnil | ⟨hblt, hbval, hmax, hstrict⟩
    · subst hnil
      simp only [List.foldl_nil] at ihlen ⊢
      rw [if_pos hsce]
      refine ⟨rfl, Or.inr ⟨Nat.zero_lt_one, ?_, ?_, ?_⟩⟩
      · rfl
      · intro j hj
        have hj1 : j = 0 := by
          simpa using hj
        subst hj1
        exact le_of_eq rfl
      · intro j hj1 hj2
        have : j = 0 := by simpa using hj2
        omega
    · by_cases hcmp : (t.foldl
          (fun (acc : Nat × Int × Nat) e =>
            if acc.2.1 ≤ e.score then (acc.2.2, e.score, acc.2.2 + 1)
            else (acc.1, acc.2.1, acc.2.2 + 1))
          (0, INT32_MIN, 0)).2.1 ≤ e.score
      · rw [if_pos hcmp]
        refine ⟨by simp [ihlen], Or.inr ⟨by simp [ihlen], ?_, ?_, ?_⟩⟩
        · rw [ihlen, getD_concat_self]
        · intro j hj
          simp only [List.length_append, List.length_singleton] at hj
          rcases Nat.lt_or_ge j t.length with hjt | hjt
          · rw [getD_append_left t [e] j hjt]
            exact le_trans (hmax j hjt) hcmp
          · have : j = t.length := by omega
            subst this
            rw [getD_concat_self]
        · intro j hj1 hj2
          rw [ihlen] at hj1
          simp only [List.length_append, List.length_singleton] at hj2
          omega
      · rw [if_neg hcmp]
        push_neg at hcmp
        refine ⟨by simp [ihlen], Or.inr ⟨by simp; omega, ?_, ?_, ?_⟩⟩
        · rw [getD_append_left t [e] _ hblt]
          exact hbval
        · intro j hj
          simp only [List.length_append, List.length_singleton] at hj
          rcases Nat.lt_or_ge j t.length with hjt | hjt
          · rw [getD_append_left t [e] j hjt]
            exact hmax j hjt
          · have : j = t.length := by omega
            subst this
            rw [getD_concat_self]
            exact le_of_lt hcmp
        · intro j hj1 hj2
          simp only [List.length_append, List.length_singleton] at hj2
          rcases Nat.lt_or_ge j t.length with hjt | hjt
          · rw [getD_append_left t [e] j hjt]
            exact hstrict j hj1 hjt
          · have : j = t.length := by omega
            subst this
            rw [getD_concat_self]
            exact hcmp

/-- The scalar argmax returns the index of the maximal score, ties broken
by the largest index. -/
theorem find_best_spec (l : List Entry) (hne : l ≠ [])
    (hsc : ∀ e ∈ l, INT32_MIN ≤ e.score) :
    IsLastArgmax l (find_best_score_index l) := by
  obtain ⟨hlen, hspec⟩ := find_best_fold_spec l hsc
  rcases hspec with h | ⟨h1, h2, h3, h4⟩
  · exact absurd h hne
  · unfold find_best_score_index IsLastArgmax
    refine ⟨h1, ?_, ?_⟩
    · intro j hj
      rw [← h2]
      exact h3 j hj
    · intro j hj1 hj2
      rw [← h2]
      exact h4 j hj1 hj2

theorem find_best_max_mem (l : List Entry) (hne : l ≠ [])
    (hsc : ∀ e ∈ l, INT32_MIN ≤ e.score) :
    ∀ e ∈ l, e.score ≤ (l.getD (find_best_score_index l) default).score := by
  intro e he
  obtain ⟨j, hj, rfl⟩ := List.mem_iff_getElem.mp he
  have := (find_best_spec l hne hsc).2.1 j hj
  rw [List.getD_eq_getElem l default hj] at this
  exact this

/-- The descending selection order has non-increasing scores. -/
theorem selSort_descB : ∀ (fuel : Nat) (l : List Entry),
    (∀ e ∈ l, INT32_MIN ≤ e.score) →
    descB ((selSort fuel l).map (fun e => e.score)) = true := by
  intro fuel
  induction fuel with
  | zero => intro l _; simp [selSort, descB]
  | succ n ih =>
    intro l hsc
    by_cases hemp : l.isEmpty
    · rw [List.isEmpty_iff.mp hemp]
      simp [selSort, descB]
    · have hne : l ≠ [] := by
        intro hc; rw [hc] at hemp; simp at hemp
      rw [selSort_cons n l hemp]
      have hsub : ∀ e ∈ removeSwap l (find_best_score_index l),
          INT32_MIN ≤ e.score :=
        fun e he => hsc e (mem_removeSwap _ _ e he)
      have ihr := ih (removeSwap l (find_best_score_index l)) hsub
      cases hsel : selSort n (removeSwap l (find_best_score_index l)) with
      | nil => simp [descB]
      | cons e1 t1 =>
        rw [hsel] at ihr
        simp only [List.map_cons, descB, Bool.and_eq_true, decide_eq_true_eq]
        refine ⟨?_, by simpa using ihr⟩
        have he1 : e1 ∈ l :=
          mem_removeSwap _ _ e1 (selSort_subset n _ e1 (by rw [hsel]; simp))
        exact find_best_max_mem l hne hsc e1 he1

/-! ## The generated scored lists -/

theorem scoreNoisyE_mv (td : Td) (tt : Nat) (e : Entry) :
    (scoreNoisyE td tt e).mv = e.mv := by
  unfold scoreNoisyE
  split <;> rfl

theorem scoreQuietE_mv (td : Td) (tt : Nat) (ply : Int) (e : Entry) :
    (scoreQuietE td tt ply e).mv = e.mv := by
  unfold scoreQuietE
  split <;> rfl

theorem noisyEntries_ok (td : Td) (h0 : 0 ∉ td.noisyMoves) :
    ∀ e ∈ noisyEntries td, e.mv ∈ td.noisyMoves ∧ e.mv ≠ 0 ∧
      e.score = td.noisyScore e.mv := by
  intro e he
  unfold noisyEntries scoreNoisy at he
  rcases List.mem_map.mp he with ⟨e0, he0, rfl⟩
  rcases List.mem_map.mp he0 with ⟨m, hm, rfl⟩
  have hm0 : m ≠ 0 := fun hc => h0 (hc ▸ hm)
  unfold scoreNoisyE
  rw [if_neg (by simpa using hm0)]
  exact ⟨by simpa using hm, by simpa using hm0, rfl⟩

theorem quietEntries_ok (td : Td) (ply : Int) (h0 : 0 ∉ td.quietMoves) :
    ∀ e ∈ quietEntries td ply, e.mv ∈ td.quietMoves ∧ e.mv ≠ 0 ∧
      e.score = td.quietScore ply e.mv := by
  intro e he
  unfold quietEntries scoreQuiet at he
  rcases List.mem_map.mp he with ⟨e0, he0, rfl⟩
  rcases List.mem_map.mp he0 with ⟨m, hm, rfl⟩
  have hm0 : m ≠ 0 := fun hc => h0 (hc ▸ hm)
  unfold scoreQuietE
  rw [if_neg (by simpa using hm0)]
  exact ⟨by simpa using hm, by simpa using hm0, rfl⟩

theorem noisyEntries_map_mv (td : Td) :
    (noisyEntries td).map (fun e => e.mv) = td.noisyMoves := by
  unfold noisyEntries scoreNoisy
  rw [List.map_map, List.map_map]
  have : ∀ m ∈ td.noisyMoves,
      (((fun e => e.mv) ∘ scoreNoisyE td 0) ∘ fun m => (⟨m, 0⟩ : Entry)) m =
        id m := by
    intro m _
    simp [Function.comp, scoreNoisyE_mv]
  rw [List.map_congr_left this, List.map_id]

theorem quietEntries_map_mv (td : Td) (ply : Int) :
    (quietEntries td ply).map (fun e => e.mv) = td.quietMoves := by
  unfold quietEntries scoreQuiet
  rw [List.map_map, List.map_map]
  have : ∀ m ∈ td.quietMoves,
      (((fun e => e.mv) ∘ scoreQuietE td 0 ply) ∘ fun m => (⟨m, 0⟩ : Entry)) m =
        id m := by
    intro m _
    simp [Function.comp, scoreQuietE_mv]
  rw [List.map_congr_left this, List.map_id]

/-- Claim C7 (amended).  Construct with no TT move on a board where every
generated noisy move fails its computed SEE threshold and run
`next(skip_quiets = false, ply)` to exhaustion: the picker first yields all
quiet moves in descending quiet-score order, then yields every noisy move
in the order it was pushed into `bad_noisy` — descending noisy-score
selection order (not generation order). -/
theorem no_tt_all_fail_run (td : Td) (root : Bool) (ply : Int)
    (h0n : 0 ∉ td.noisyMoves) (h0q : 0 ∉ td.quietMoves)
    (hsee : ∀ m ∈ td.noisyMoves,
      td.see m (Int.tdiv (-(td.noisyScore m)) 46 + 109) = false)
    (hqs : ∀ m ∈ td.quietMoves, INT32_MIN ≤ td.quietScore ply m)
    (hns : ∀ m ∈ td.noisyMoves, INT32_MIN ≤ td.noisyScore m) :
    drain td root false ply (td.quietMoves.length + td.noisyMoves.length + 1)
      (MovePicker.new 0) =
      (selSortL (quietEntries td ply)).map (fun e => e.mv) ++
        (selSortL (noisyEntries td)).map (fun e => e.mv) ∧
    ((selSortL (quietEntries td ply)).map (fun e => e.mv)).Perm
      td.quietMoves ∧
    ((selSortL (noisyEntries td)).map (fun e => e.mv)).Perm td.noisyMoves ∧
    descB (((selSortL (quietEntries td ply)).map (fun e => e.mv)).map
      (td.quietScore ply)) = true ∧
    descB (((selSortL (noisyEntries td)).map (fun e => e.mv)).map
      td.noisyScore) = true := by
  have hpermN : (selSortL (noisyEntries td)).Perm (noisyEntries td) :=
    selSortL_perm _
  have hpermQ : (selSortL (quietEntries td ply)).Perm (quietEntries td ply) :=
    selSortL_perm _
  have hnlen : (noisyEntries td).length = td.noisyMoves.length := by
    simp [noisyEntries, scoreNoisy]
  have hqlen : (quietEntries td ply).length = td.quietMoves.length := by
    simp [quietEntries, scoreQuiet]
  refine ⟨?_, ?_, ?_, ?_, ?_⟩
  · -- the drain equation
    have hL1 := goodNoisyLoop_all_fail td root hsee (noisyEntries td).length
      (pStartOf td) (Nat.le_refl _) rfl rfl
      (fun e he => noisyEntries_ok td h0n e he)
    have hnext0 : next td root false ply (MovePicker.new 0) =
        nextFromGenQuiet td root false ply (qMidOf td) := by
      rw [next_at_genNoisy td root false ply (MovePicker.new 0) rfl]
      rw [show scoreNoisy td (MovePicker.new 0).ttMove
          ((MovePicker.new 0).list ++ td.noisyMoves.map (fun m => ⟨m, 0⟩)) =
          noisyEntries td from rfl]
      rw [show ({ MovePicker.new 0 with
          stage := Stage.GoodNoisy,
          list := noisyEntries td } : MovePicker) = pStartOf td from rfl]
      rw [hL1]
      rfl
    have hnext1 : next td root false ply (qMidOf td) =
        next td root false ply (pQuietOf td ply) := by
      rw [next_at_genQuiet td root false ply (qMidOf td) rfl,
        next_quiet_step td root ply (pQuietOf td ply) rfl]
      unfold nextFromGenQuiet
      rw [show phaseGenerateQuiet td false ply (qMidOf td) = pQuietOf td ply by
        unfold phaseGenerateQuiet
        rw [if_pos (show (qMidOf td).stage = Stage.GenerateQuiet from rfl),
          if_neg (show ¬((false : Bool) = true) by simp)]
        rfl]
      rfl
    have hc0 : drain td root false ply
        (td.quietMoves.length + td.noisyMoves.length + 1) (MovePicker.new 0) =
        drain td root false ply
          (td.quietMoves.length + td.noisyMoves.length + 1) (qMidOf td) :=
      drain_congr td root false ply _ _ _
        (hnext0.trans (next_at_genQuiet td root false ply (qMidOf td) rfl).symm)
    have hc1 : drain td root false ply
        (td.quietMoves.length + td.noisyMoves.length + 1) (qMidOf td) =
        drain td root false ply
          (td.quietMoves.length + td.noisyMoves.length + 1)
          (pQuietOf td ply) :=
      drain_congr td root false ply _ _ _ hnext1
    rw [hc0, hc1]
    have hbadne : ∀ m ∈ (pQuietOf td ply).badNoisy, m ≠ 0 := by
      intro m hm
      rcases List.mem_map.mp hm with ⟨e, he, rfl⟩
      have : e ∈ noisyEntries td :=
        selSort_subset (noisyEntries td).length _ e he
      exact (noisyEntries_ok td h0n e this).2.1
    have hfuel : (pQuietOf td ply).list.length +
        (pQuietOf td ply).badNoisy.length ≤
        td.quietMoves.length + td.noisyMoves.length + 1 := by
      have h1 : (pQuietOf td ply).list.length = td.quietMoves.length := by
        rw [show (pQuietOf td ply).list = quietEntries td ply from rfl, hqlen]
      have h2 : (pQuietOf td ply).badNoisy.length = td.noisyMoves.length := by
        rw [show (pQuietOf td ply).badNoisy =
          (selSortL (noisyEntries td)).map (fun e => e.mv) from rfl]
        rw [List.length_map, hpermN.length_eq, hnlen]
      omega
    have := drain_quiet td root ply
      (td.quietMoves.length + td.noisyMoves.length + 1) (pQuietOf td ply)
      rfl rfl rfl
      (fun e he => ⟨(quietEntries_ok td ply h0q e he).2.1,
        (quietEntries_ok td ply h0q e he).2.2⟩)
      hbadne hfuel
    exact this
  · have := hpermQ.map (fun e => e.mv)
    rw [quietEntries_map_mv td ply] at this
    exact this
  · have := hpermN.map (fun e => e.mv)
    rw [noisyEntries_map_mv td] at this
    exact this
  · rw [List.map_map]
    have hcongr : ∀ e ∈ selSortL (quietEntries td ply),
        (td.quietScore ply ∘ fun e => e.mv) e = (fun e => e.score) e := by
      intro e he
      have hmem : e ∈ quietEntries td ply :=
        selSort_subset (quietEntries td ply).length _ e he
      simp [Function.comp]
      exact ((quietEntries_ok td ply h0q e hmem).2.2).symm
    rw [List.map_congr_left hcongr]
    apply selSort_descB
    intro e he
    obtain ⟨hmemq, _, hscq⟩ := quietEntries_ok td ply h0q e he
    rw [hscq]
    exact hqs _ hmemq
  · rw [List.map_map]
    have hcongr : ∀ e ∈ selSortL (noisyEntries td),
        (td.noisyScore ∘ fun e => e.mv) e = (fun e => e.score) e := by
      intro e he
      have hmem : e ∈ noisyEntries td :=
        selSort_subset (noisyEntries td).length _ e he
      simp [Function.comp]
      exact ((noisyEntries_ok td h0n e hmem).2.2).symm
    rw [List.map_congr_left hcongr]
    apply selSort_descB
    intro e he
    obtain ⟨hmemn, _, hscn⟩ := noisyEntries_ok td h0n e he
    rw [hscn]
    exact hns _ hmemn

/-! ## C4: scalar and AVX2 argmax agree -/

theorem foldl_max_le_iff (l : List Int) (a b : Int) :
    l.foldl max a ≤ b ↔ a ≤ b ∧ ∀ x ∈ l, x ≤ b := by
  induction l generalizing a with
  | nil => simp
  | cons x t ih =>
    simp only [List.foldl_cons, ih, max_le_iff, List.mem_cons]
    constructor
    · rintro ⟨⟨h1, h2⟩, h3⟩
      exact ⟨h1, fun y hy => hy.elim (fun hh => hh ▸ h2) (h3 y)⟩
    · rintro ⟨h1, h2⟩
      exact ⟨⟨h1, h2 x (Or.inl rfl)⟩, fun y hy => h2 y (Or.inr hy)⟩

theorem le_foldl_max_init (l : List Int) : ∀ a : Int, a ≤ l.foldl max a := by
  induction l with
  | nil => intro a; exact le_refl a
  | cons x t ih => intro a; exact le_trans (le_max_left a x) (ih (max a x))

theorem le_foldl_max_of_mem (l : List Int) :
    ∀ (a : Int), ∀ x ∈ l, x ≤ l.foldl max a := by
  induction l with
  | nil => intro a x hx; simp at hx
  | cons y t ih =>
    intro a x hx
    rcases List.mem_cons.mp hx with rfl | hx'
    · exact le_trans (le_max_right a x) (le_foldl_max_init t (max a x))
    · exact ih (max a y) x hx'

theorem mem_enum_map_pack (l : List Entry) (i : Nat) (h : i < l.length) :
    packEntry (l.getD i default) i ∈
      l.enum.map (fun p => packEntry p.2 p.1) := by
  refine List.mem_map.mpr ⟨(i, l.getD i default), ?_, rfl⟩
  rw [List.mem_iff_getElem]
  refine ⟨i, by rw [List.enum_length]; exact h, ?_⟩
  rw [List.getElem_enum, List.getD_eq_getElem l default h]

/-- Claim C4.  On every non-empty scored-move list with `i32` scores and at
most 256 entries (the `MAX_MOVES` bound assumed by the AVX2 kernel's
`& 0xFF`), the scalar and the AVX2 `find_best_score_index` return the same
index: the index of an entry holding the maximal score, with ties broken
towards the largest index. -/
theorem find_best_score_index_avx2_eq (l : List Entry) (hne : l ≠ [])
    (hlen : l.length ≤ 256)
    (hsc : ∀ e ∈ l, INT32_MIN ≤ e.score ∧ e.score < 2 ^ 31) :
    find_best_score_index_avx2 l = find_best_score_index l ∧
    IsLastArgmax l (find_best_score_index l) := by
  have hspec := find_best_spec l hne (fun e he => (hsc e he).1)
  obtain ⟨hilt, hmax, hstrict⟩ := hspec
  refine ⟨?_, hilt, hmax, hstrict⟩
  have h32 : (2 : Int) ^ 32 = 4294967296 := by norm_num
  -- the fold computes exactly the packed value of the last argmax
  have hfold : (l.enum.map (fun p => packEntry p.2 p.1)).foldl max I64_MIN =
      packEntry (l.getD (find_best_score_index l) default)
        (find_best_score_index l) := by
    apply le_antisymm
    · rw [foldl_max_le_iff]
      constructor
      · have h1 := (hsc _ (getD_mem l default _ hilt)).1
        unfold INT32_MIN at h1
        rw [show (2 : Int) ^ 31 = 2147483648 by norm_num] at h1
        unfold packEntry I64_MIN
        rw [h32, show (2 : Int) ^ 63 = 9223372036854775808 by norm_num]
        have hmul : (-2147483648 : Int) * 4294967296 ≤
            (l.getD (find_best_score_index l) default).score * 4294967296 :=
          mul_le_mul_of_nonneg_right h1 (by norm_num)
        have hidx0 : (0 : Int) ≤ (find_best_score_index l : Int) :=
          Int.ofNat_nonneg _
        omega
      · intro x hx
        rcases List.mem_map.mp hx with ⟨⟨j, ej⟩, hpj, rfl⟩
        rw [List.mem_iff_getElem] at hpj
        obtain ⟨k, hk, hkeq⟩ := hpj
        rw [List.getElem_enum] at hkeq
        have hk' : k < l.length := by rw [List.enum_length] at hk; exact hk
        obtain ⟨rfl, rfl⟩ : k = j ∧ l[k] = ej := by
          constructor
          · exact (Prod.mk.injEq .. ▸ hkeq).1
          · exact (Prod.mk.injEq .. ▸ hkeq).2
        dsimp only
        have hje := hmax k hk'
        rw [List.getD_eq_getElem l default hk'] at hje
        unfold packEntry
        rw [h32]
        rcases lt_or_eq_of_le hje with hlt | heq
        · -- strictly smaller score: score dominates the packed order
          have hkb : (k : Int) < 4294967296 := by
            have : k < 256 := by omega
            omega
          have : l[k].score * 4294967296 + 4294967296 ≤
              (l.getD (find_best_score_index l) default).score * 4294967296 := by
            have := Int.add_one_le_iff.mpr hlt
            have := mul_le_mul_of_nonneg_right this (by norm_num : (0:Int) ≤ 4294967296)
            rw [add_mul, one_mul] at this
            exact this
          omega
        · -- equal scores: the last-argmax index is the largest
          have hki : k ≤ find_best_score_index l := by
            by_contra hgt
            push_neg at hgt
            have := hstrict k hgt hk'
            rw [List.getD_eq_getElem l default hk'] at this
            omega
          rw [heq]
          omega
    · exact le_foldl_max_of_mem _ I64_MIN _
        (mem_enum_map_pack l _ hilt)
  unfold find_best_score_index_avx2
  rw [hfold]
  unfold packEntry
  have hidx : ((l.getD (find_best_score_index l) default).score * 2 ^ 32 +
      (find_best_score_index l : Int)) % 256 = find_best_score_index l := by
    rw [h32]
    have h256 : ((l.getD (find_best_score_index l) default).score *
        4294967296 : Int) = 256 * ((l.getD (find_best_score_index l)
          default).score * 16777216) := by ring
    rw [h256, add_comm, Int.add_mul_emod_self_left]
    apply Int.emod_eq_of_lt
    · exact Int.ofNat_nonneg _
    · exact_mod_cast by omega
  rw [hidx]
  exact Int.toNat_natCast _

/-- Witness for C4 at a concrete tied list: both implementations pick
index 1, the later of the two maximal scores. -/
theorem find_best_score_index_avx2_eq_witness :
    find_best_score_index_avx2 [⟨7, 5⟩, ⟨9, 5⟩] =
      find_best_score_index [⟨7, 5⟩, ⟨9, 5⟩] ∧
    IsLastArgmax [⟨7, 5⟩, ⟨9, 5⟩] (find_best_score_index [⟨7, 5⟩, ⟨9, 5⟩]) :=
  find_best_score_index_avx2_eq [⟨7, 5⟩, ⟨9, 5⟩] (by decide) (by decide)
    (by decide)

/-- Witness for the amended C7 on the concrete board `tdSel`. -/
theorem no_tt_all_fail_run_witness :
    drain tdSel false false 0
        (tdSel.quietMoves.length + tdSel.noisyMoves.length + 1)
        (MovePicker.new 0) =
      (selSortL (quietEntries tdSel 0)).map (fun e => e.mv) ++
        (selSortL (noisyEntries tdSel)).map (fun e => e.mv) ∧
    ((selSortL (quietEntries tdSel 0)).map (fun e => e.mv)).Perm
      tdSel.quietMoves ∧
    ((selSortL (noisyEntries tdSel)).map (fun e => e.mv)).Perm
      tdSel.noisyMoves ∧
    descB (((selSortL (quietEntries tdSel 0)).map (fun e => e.mv)).map
      (tdSel.quietScore 0)) = true ∧
    descB (((selSortL (noisyEntries tdSel)).map (fun e => e.mv)).map
      tdSel.noisyScore) = true :=
  no_tt_all_fail_run tdSel false 0 (by decide) (by decide) (by decide)
    (by decide) (by decide)

/-- Counterexample to C7 as stated: on `tdSel` the noisy moves are
generated in the order `[7, 9]` and all fail SEE, but the exhausted run
yields them as `[9, 7]` — descending noisy-score selection order, not
generation order. -/
theorem no_tt_all_fail_counterexample :
    tdSel.noisyMoves = [7, 9] ∧ tdSel.quietMoves = [] ∧
    drain tdSel false false 0 3 (MovePicker.new 0) = [9, 7] :=
  ⟨rfl, rfl, rfl⟩

/-! ## C9: channel constructor contract -/

/-- Claim C9.  `channel(receiver_count)` aborts (assertion failure,
modelled as `none`) exactly when the count is 0 or exceeds `2³¹ − 1`, and
otherwise returns one sender together with exactly `receiver_count`
receivers. -/
theorem channel_contract (n : Nat) :
    (channel n = none ↔ (n = 0 ∨ 2 ^ 31 - 1 < n)) ∧
    (1 ≤ n → n ≤ 2 ^ 31 - 1 →
      ∃ tx rxs, channel n = some (tx, rxs) ∧ rxs.length = n) := by
  constructor
  · unfold channel THREADS_MASK
    by_cases h : 1 ≤ n ∧ n ≤ 2 ^ 31 - 1
    · rw [if_pos h]
      constructor
      · intro hc
        exact absurd hc (by simp)
      · intro hc
        exact absurd hc (by omega)
    · rw [if_neg h]
      constructor
      · intro _
        omega
      · intro _
        rfl
  · intro h1 h2
    refine ⟨⟨⟨true, 0, n⟩⟩, List.replicate n ⟨⟨true, 0, n⟩, false⟩, ?_, ?_⟩
    · unfold channel
      rw [if_pos ⟨h1, by unfold THREADS_MASK; omega⟩]
    · simp

/-- Witness for C9: count 0 aborts; count 3 yields 3 receivers. -/
theorem channel_contract_witness :
    (channel 0 = none ↔ ((0 : Nat) = 0 ∨ 2 ^ 31 - 1 < 0)) ∧
    (∃ tx rxs, channel 3 = some (tx, rxs) ∧ rxs.length = 3) :=
  ⟨(channel_contract 0).1, (channel_contract 3).2 (by decide) (by norm_num)⟩

/-! ## C8: the bitboard counter wraps modulo 256 -/

theorem applyOp_lt (c : BitboardCounter) (o : CounterOp) (s : Fin 64) :
    (applyOp c o).bb s < 256 := by
  cases o <;>
    simp [applyOp, BitboardCounter.update, BitboardCounter.add, addBytes] <;>
    omega

theorem applyOp_cast (c : BitboardCounter) (o : CounterOp) (s : Fin 64) :
    ((applyOp c o).bb s : ZMod 256) =
      (c.bb s : ZMod 256) + opAdds o s - opSubs o s := by
  have h255 : ((255 : Nat) : ZMod 256) = -1 := by decide
  have h256 : ((256 : Nat) : ZMod 256) = 0 := by decide
  cases o with
  | add d =>
    simp only [applyOp, BitboardCounter.add, addBytes, maskzSet1, opAdds, opSubs]
    rw [ZMod.natCast_mod]
    by_cases hb : d.testBit s.val <;> simp [hb] <;> push_cast <;> ring
  | update sub add =>
    simp only [applyOp, BitboardCounter.update, addBytes, subBytes,
      maskzSet1, opAdds, opSubs]
    rw [ZMod.natCast_mod]
    push_cast
    rw [ZMod.natCast_mod]
    have hl255 : (255 : ZMod 256) = -1 := by decide
    have hl256 : (256 : ZMod 256) = 0 := by decide
    by_cases hs : sub.testBit s.val <;> by_cases ha : add.testBit s.val <;>
      simp [hs, ha] <;> push_cast [h255, h256] <;>
      simp only [hl255, hl256] <;> ring

theorem applyOps_spec : ∀ (ops : List CounterOp) (c : BitboardCounter),
    (∀ s, c.bb s < 256) → ∀ s : Fin 64,
    (applyOps c ops).bb s < 256 ∧
    ((applyOps c ops).bb s : ZMod 256) =
      (c.bb s : ZMod 256) + ((ops.map (fun o => opAdds o s)).sum : Nat) -
        ((ops.map (fun o => opSubs o s)).sum : Nat) := by
  intro ops
  induction ops with
  | nil =>
    intro c hc s
    refine ⟨hc s, ?_⟩
    simp [applyOps]
  | cons o rest ih =>
    intro c hc s
    have hstep : applyOps c (o :: rest) = applyOps (applyOp c o) rest := rfl
    rw [hstep]
    obtain ⟨ha, hb⟩ := ih (applyOp c o) (fun s' => applyOp_lt c o s') s
    refine ⟨ha, ?_⟩
    rw [hb, applyOp_cast c o s]
    simp only [List.map_cons, List.sum_cons]
    push_cast
    ring

/-- Claim C8 (amended).  Each of the 64 per-square counts maintained by
`BitboardCounter` is an 8-bit wrapping counter: for every sequence of
`add`/`update` operations from the zeroed state, each square's count byte
stays below 256 and equals, modulo 256, the number of increments minus the
number of decrements applied to that square — the counter wraps at the
byte boundaries rather than saturating, and its range is 0–255, not
0–15. -/
theorem bitboard_counter_wrapping (ops : List CounterOp) (s : Fin 64) :
    (applyOps BitboardCounter.zeroed ops).bb s < 256 ∧
    ((applyOps BitboardCounter.zeroed ops).bb s : ZMod 256) =
      ((ops.map (fun o => opAdds o s)).sum : Nat) -
        ((ops.map (fun o => opSubs o s)).sum : Nat) := by
  have := applyOps_spec ops BitboardCounter.zeroed
    (fun _ => by simp [BitboardCounter.zeroed]) s
  simpa [BitboardCounter.zeroed] using this

/-- Counterexample to C8 as stated: sixteen `add` operations on square 0
drive its count to 16, outside the claimed 0–15 range — the counter does
not saturate at 15. -/
theorem bitboard_counter_counterexample :
    (applyOps BitboardCounter.zeroed
      (List.replicate 16 (CounterOp.add 1))).bb 0 = 16 ∧
    ¬ ((applyOps BitboardCounter.zeroed
      (List.replicate 16 (CounterOp.add 1))).bb 0 ≤ 15) :=
  ⟨rfl, by decide⟩

/-! ## C6: clamped propagation stays in the unit interval -/

/-- Claim C6.  Every output lane of `propagate_l1` (for lane indices below
`L2_SIZE`) and of `propagate_l2` (below `L3_SIZE`) lies in `[0, 1]`: both
functions clamp each lane to `[0, 1]` as their final step, for every
activation buffer, sparse index list, weight/bias tensor and dequantation
factor. -/
theorem propagate_outputs_unit_interval (packed : Nat → Int) (nnz : List Nat)
    (w : Nat → Nat → Int) (bias : Nat → ℚ) (dequant : ℚ) (l1_out : Nat → ℚ)
    (w2 : Nat → Nat → ℚ) (bias2 : Nat → ℚ) (L2 L3 : Nat) :
    (∀ j, j < L2 → 0 ≤ propagate_l1 packed nnz w bias dequant j ∧
      propagate_l1 packed nnz w bias dequant j ≤ 1) ∧
    (∀ j, j < L3 → 0 ≤ propagate_l2 l1_out w2 bias2 L2 j ∧
      propagate_l2 l1_out w2 bias2 L2 j ≤ 1) := by
  have hcl : ∀ x : ℚ, 0 ≤ clampQ x ∧ clampQ x ≤ 1 := by
    intro x
    unfold clampQ
    exact ⟨le_min (by norm_num) (le_max_left 0 x), min_le_left 1 _⟩
  exact ⟨fun j _ => hcl _, fun j _ => hcl _⟩

/-- Witness for C6 at a concrete lane. -/
theorem propagate_outputs_unit_interval_witness :
    (0 ≤ propagate_l1 (fun _ => 0) [] (fun _ _ => 0) (fun _ => 0) 0 0 ∧
      propagate_l1 (fun _ => 0) [] (fun _ _ => 0) (fun _ => 0) 0 0 ≤ 1) ∧
    (0 ≤ propagate_l2 (fun _ => 0) (fun _ _ => 0) (fun _ => 0) 1 0 ∧
      propagate_l2 (fun _ => 0) (fun _ _ => 0) (fun _ => 0) 1 0 ≤ 1) :=
  ⟨(propagate_outputs_unit_interval (fun _ => 0) [] (fun _ _ => 0)
      (fun _ => 0) 0 (fun _ => 0) (fun _ _ => 0) (fun _ => 0) 1 1).1 0
      (by decide),
    (propagate_outputs_unit_interval (fun _ => 0) [] (fun _ _ => 0)
      (fun _ => 0) 0 (fun _ => 0) (fun _ _ => 0) (fun _ => 0) 1 1).2 0
      (by decide)⟩

/-! ## C2: the three find_nnz implementations -/

theorem nzIndicesFrom_append : ∀ (a : List Int) (base : Nat) (b : List Int),
    nzIndicesFrom base (a ++ b) =
      nzIndicesFrom base a ++ nzIndicesFrom (base + a.length) b := by
  intro a
  induction a with
  | nil =>
    intro base b
    simp [nzIndicesFrom]
  | cons c rest ih =>
    intro base b
    show (if c ≠ 0 then [base] else []) ++ nzIndicesFrom (base + 1) (rest ++ b) = _
    rw [ih (base + 1) b]
    show _ = ((if c ≠ 0 then [base] else []) ++ nzIndicesFrom (base + 1) rest) ++
      nzIndicesFrom (base + (rest.length + 1)) b
    rw [List.append_assoc]
    have h : base + 1 + rest.length = base + (rest.length + 1) := by omega
    rw [h]

theorem nzIndicesFrom_split (k base : Nat) (l : List Int) :
    nzIndicesFrom base l =
      nzIndicesFrom base (l.take k) ++ nzIndicesFrom (base + k) (l.drop k) := by
  by_cases h : k ≤ l.length
  · conv_lhs => rw [← List.take_append_drop k l]
    rw [nzIndicesFrom_append, List.length_take, min_eq_left h]
  · have h1 : l.take k = l := List.take_of_length_le (by omega)
    have h2 : l.drop k = [] := List.drop_eq_nil_of_le (by omega)
    rw [h1, h2]
    simp [nzIndicesFrom]

theorem findNnzPortableAux_eq : ∀ (fuel base : Nat) (l : List Int),
    l.length ≤ fuel → findNnzPortableAux fuel base l = nzIndicesFrom base l := by
  intro fuel
  induction fuel with
  | zero =>
    intro base l h
    have hl : l = [] := List.length_eq_zero.mp (Nat.le_zero.mp h)
    subst hl
    rfl
  | succ fuel ih =>
    intro base l h
    cases l with
    | nil => rfl
    | cons c rest =>
      show nzIndicesFrom base ((c :: rest).take 8) ++
          findNnzPortableAux fuel (base + 8) ((c :: rest).drop 8) = _
      rw [ih (base + 8) ((c :: rest).drop 8)
        (by simp only [List.length_drop, List.length_cons] at h ⊢; omega)]
      exact (nzIndicesFrom_split 8 base (c :: rest)).symm

theorem findNnzAvx512Aux_eq : ∀ (fuel base : Nat) (l : List Int),
    l.length ≤ fuel → findNnzAvx512Aux fuel base l = nzIndicesFrom base l := by
  intro fuel
  induction fuel with
  | zero =>
    intro base l h
    have hl : l = [] := List.length_eq_zero.mp (Nat.le_zero.mp h)
    subst hl
    rfl
  | succ fuel ih =>
    intro base l h
    cases l with
    | nil => rfl
    | cons c rest =>
      show nzIndicesFrom base ((c :: rest).take 64) ++
          findNnzAvx512Aux fuel (base + 64) ((c :: rest).drop 64) = _
      rw [ih (base + 64) ((c :: rest).drop 64)
        (by simp only [List.length_drop, List.length_cons] at h ⊢; omega)]
      exact (nzIndicesFrom_split 64 base (c :: rest)).symm

theorem avx2Active_iff (c : Int) (hc : 0 ≤ c) : avx2Active c = true ↔ c ≠ 0 := by
  rw [avx2Active, decide_eq_true_iff]
  unfold satI8 satI16
  rcases eq_or_lt_of_le hc with h0 | h0
  · rw [← h0]
    norm_num
  · have h1 : (0 : Int) < min (2 ^ 15 - 1) c := lt_min (by norm_num) h0
    have h2 : max (-(2 ^ 15)) (min (2 ^ 15 - 1) c) = min (2 ^ 15 - 1) c :=
      max_eq_right (le_trans (by norm_num) (le_of_lt h1))
    rw [h2]
    have h3 : (0 : Int) < min (2 ^ 7 - 1) (min (2 ^ 15 - 1) c) :=
      lt_min (by norm_num) h1
    have h4 : max (-(2 ^ 7)) (min (2 ^ 7 - 1) (min (2 ^ 15 - 1) c)) =
        min (2 ^ 7 - 1) (min (2 ^ 15 - 1) c) :=
      max_eq_right (le_trans (by norm_num) (le_of_lt h3))
    rw [h4]
    exact ⟨fun _ => ne_of_gt h0, fun _ => h3⟩

theorem nzIndicesFrom_eq_filterMap : ∀ (g : List Int) (base n : Nat),
    (∀ c ∈ g, 0 ≤ c) → g.length ≤ n →
    (List.range n).filterMap
      (fun j => if avx2Active (g.getD j 0) then some (base + j) else none) =
    nzIndicesFrom base g := by
  intro g
  induction g with
  | nil =>
    intro base n _ _
    have h0 : avx2Active ((0 : Int)) = false := by decide
    refine List.filterMap_eq_nil_iff.mpr (fun j _ => ?_)
    show (if avx2Active ((0 : Int)) then some (base + j) else none) = none
    rw [h0]
    simp
  | cons c rest ih =>
    intro base n hg hn
    obtain ⟨m, rfl⟩ : ∃ m, n = m + 1 := by
      cases n with
      | zero => simp at hn
      | succ m => exact ⟨m, rfl⟩
    have hgrest : ∀ x ∈ rest, (0 : Int) ≤ x :=
      fun x hx => hg x (List.mem_cons_of_mem _ hx)
    have hhead : (0 : Int) ≤ c := hg c (List.mem_cons_self _ _)
    have hlrest : rest.length ≤ m := by
      simp only [List.length_cons] at hn; omega
    rw [List.range_succ_eq_map, List.filterMap_cons, List.filterMap_map]
    have htail : ((fun j =>
        if avx2Active ((c :: rest).getD j 0) then some (base + j) else none) ∘
          Nat.succ) =
        (fun j => if avx2Active (rest.getD j 0) then some (base + 1 + j)
          else none) := by
      funext j
      show (if avx2Active (rest.getD j 0) then some (base + (j + 1)) else none) =
        (if avx2Active (rest.getD j 0) then some (base + 1 + j) else none)
      have h : base + (j + 1) = base + 1 + j := by omega
      rw [h]
    rw [htail, ih (base + 1) m hgrest hlrest]
    by_cases hc : c = 0
    · have hA : avx2Active ((0 : Int)) = false := by decide
      simp [hc, hA, nzIndicesFrom]
    · have hA : avx2Active c = true := (avx2Active_iff c hhead).mpr hc
      simp [hA, nzIndicesFrom, hc]

theorem findNnzAvx2Block_perm (base : Nat) (g : List Int)
    (hg : ∀ c ∈ g, 0 ≤ c) (hlen : g.length ≤ 32) :
    (findNnzAvx2Block base g).Perm (nzIndicesFrom base g) := by
  have hperm : avx2Pattern.Perm (List.range 32) := by decide
  have h1 : (findNnzAvx2Block base g).Perm
      ((List.range 32).filterMap
        (fun j => if avx2Active (g.getD j 0) then some (base + j) else none)) :=
    hperm.filterMap _
  rw [nzIndicesFrom_eq_filterMap g base 32 hg hlen] at h1
  exact h1

theorem findNnzAvx2Aux_perm : ∀ (fuel base : Nat) (l : List Int),
    l.length ≤ fuel → (∀ c ∈ l, 0 ≤ c) →
    (findNnzAvx2Aux fuel base l).Perm (nzIndicesFrom base l) := by
  intro fuel
  induction fuel with
  | zero =>
    intro base l h _
    have hl : l = [] := List.length_eq_zero.mp (Nat.le_zero.mp h)
    subst hl
    exact List.Perm.refl _
  | succ fuel ih =>
    intro base l h hg
    cases l with
    | nil => exact List.Perm.refl _
    | cons c rest =>
      show (findNnzAvx2Block base ((c :: rest).take 32) ++
          findNnzAvx2Aux fuel (base + 32) ((c :: rest).drop 32)).Perm _
      rw [nzIndicesFrom_split 32 base (c :: rest)]
      exact List.Perm.append
        (findNnzAvx2Block_perm base _
          (fun x hx => hg x (List.take_subset _ _ hx)) (List.length_take_le _ _))
        (ih (base + 32) _
          (by simp only [List.length_drop, List.length_cons] at h ⊢; omega)
          (fun x hx => hg x (List.drop_subset _ _ hx)))

/-- Claim C2 (amended).  For activation buffers of at most 256 chunks (the
domain on which the single-byte index model is exact; the source requires
`L1_SIZE / 4 ≤ 256`): the portable and AVX-512 VBMI `find_nnz`
implementations agree exactly, both returning the indices of the non-zero
4-byte chunks in ascending scan order; the AVX2+BMI2 implementation
returns, when every chunk is non-negative as a signed 32-bit integer (as
holds for the clipped-ReLU activations it is applied to), the same index
set and count but in the pack-interleaved per-32-chunk order, not scan
order. -/
theorem find_nnz_agreement (l : List Int) (hlen : l.length ≤ 256) :
    find_nnz_portable l = nzIndicesFrom 0 l ∧
    find_nnz_avx512 l = nzIndicesFrom 0 l ∧
    ((∀ c ∈ l, 0 ≤ c) → (find_nnz_avx2 l).Perm (nzIndicesFrom 0 l)) :=
  ⟨findNnzPortableAux_eq l.length 0 l (Nat.le_refl _),
    findNnzAvx512Aux_eq l.length 0 l (Nat.le_refl _),
    fun hg => findNnzAvx2Aux_perm l.length 0 l (Nat.le_refl _) hg⟩

/-- Witness for C2 on a concrete buffer. -/
theorem find_nnz_agreement_witness :
    find_nnz_portable [1, 0, 7] = nzIndicesFrom 0 [1, 0, 7] ∧
    find_nnz_avx512 [1, 0, 7] = nzIndicesFrom 0 [1, 0, 7] ∧
    (find_nnz_avx2 [1, 0, 7]).Perm (nzIndicesFrom 0 [1, 0, 7]) :=
  ⟨(find_nnz_agreement [1, 0, 7] (by decide)).1,
    (find_nnz_agreement [1, 0, 7] (by decide)).2.1,
    (find_nnz_agreement [1, 0, 7] (by decide)).2.2 (by decide)⟩

/-- Counterexample to C2 as stated: on the buffer whose chunk 0 is
`i32::MIN` (non-zero, but negative, so the AVX2 signed `> 0` test after
saturating packs rejects it) and whose chunks 4 and 8 are 1, the portable
and AVX-512 paths emit `[0, 4, 8]` while the AVX2 path emits `[8, 4]` —
different count, different indices, different order. -/
theorem find_nnz_counterexample :
    find_nnz_portable exC2 = [0, 4, 8] ∧
    find_nnz_avx512 exC2 = [0, 4, 8] ∧
    find_nnz_avx2 exC2 = [8, 4] :=
  ⟨rfl, rfl, rfl⟩

end Reckless
